import Mathlib

/-!
A shallow embedding of the data-path core of `src/LINUX/netmap_linux.c`:

* `netmap_socket_sendmsg` (ingest): copies a scatter-gather list of caller
  segments into consecutive ring slots, splitting oversized segments and
  marking fragment continuation with `NS_MOREFRAG`.
* `netmap_socket_recvmsg` (drain): copies bytes from consecutive ring slots
  (possibly spanning a fragmented packet) into a scatter-gather destination.
* `generic_timer_handler` and friends: the interrupt-mitigation coalescer.

Bytes are modelled as `Nat`; buffers as `List Nat`; machine-word arithmetic in
the source never overflows on the quantities involved, so plain `Nat` is used.
Loops are modelled with explicit fuel; every top-level entry point passes fuel
that provably dominates the loop's termination measure.
-/

set_option maxRecDepth 10000

/-- Slot of a netmap ring (struct netmap_slot): the valid length `len`, the
`NS_MOREFRAG` and `NS_VNET_HDR` flag bits, and the contents of the fixed
per-slot buffer reached through `BDG_NMB`. -/
structure Slot where
  len : Nat
  morefrag : Bool
  vnethdr : Bool
  buf : List Nat
deriving DecidableEq, Repr

instance : Inhabited Slot := ⟨⟨0, false, false, []⟩⟩

/-- Externally visible state of a netmap ring (struct netmap_ring): the slot
array, the `cur` and `avail` cursors and the per-slot buffer size
`nr_buf_size`.  The ring capacity is `slot.length`. -/
structure NmRing where
  slot : List Slot
  cur : Nat
  avail : Nat
  nr_buf_size : Nat
deriving DecidableEq, Repr

/-- NETMAP_RING_NEXT(r, i): step a slot index, wrapping to 0 when `i + 1`
reaches the number of slots. -/
def NETMAP_RING_NEXT (numSlots i : Nat) : Nat :=
  if i + 1 = numSlots then 0 else i + 1

/-! ### Ingest path: netmap_socket_sendmsg -/

/-- Loop state of `netmap_socket_sendmsg`: the (possibly already mutated) slot
array, the running index `i`, the index `last` of the last slot written, the
remaining `avail`, and whether `NS_VNET_HDR` is still present in `slot_flags`
(it is cleared after the first slot of the call). -/
structure TxState where
  slots : List Slot
  i : Nat
  last : Nat
  avail : Nat
  vnet : Bool
deriving DecidableEq, Repr

/-- Inner `while (iov_frag_size)` loop of `netmap_socket_sendmsg` for one
iovec segment: repeatedly write `min(iov_frag_size, nm_buf_size)` bytes into
the slot at `i`, set its `len` and flags, advance `i` and decrement `avail`.
`Sum.inl` is the `return 0` taken when `avail == 0` (carrying the slot
mutations already performed); `Sum.inr` is normal completion of the segment.
The fuel argument dominates the iteration count whenever it exceeds
`s.avail`. -/
def txSeg (cap bufsz : Nat) : Nat → List Nat → TxState → TxState ⊕ TxState
  | _, [], s => Sum.inr s
  | 0, _ :: _, s => Sum.inr s
  | fuel + 1, a :: rest, s =>
    let seg := a :: rest
    let nmFragSize := min seg.length bufsz
    if s.avail = 0 then Sum.inl s
    else
      let old := s.slots.getD s.i default
      let wr : Slot :=
        { len := nmFragSize, morefrag := true, vnethdr := s.vnet,
          buf := seg.take nmFragSize ++ old.buf.drop nmFragSize }
      let s1 : TxState :=
        { slots := s.slots.set s.i wr, i := NETMAP_RING_NEXT cap s.i,
          last := s.i, avail := s.avail - 1, vnet := false }
      txSeg cap bufsz fuel (seg.drop nmFragSize) s1

/-- Outer `for (j=0; j<iovcnt; j++)` loop of `netmap_socket_sendmsg`. -/
def txSegs (cap bufsz : Nat) : List (List Nat) → TxState → TxState ⊕ TxState
  | [], s => Sum.inr s
  | seg :: rest, s =>
    match txSeg cap bufsz (seg.length + s.avail + 1) seg s with
    | Sum.inl s1 => Sum.inl s1
    | Sum.inr s1 => txSegs cap bufsz rest s1

/-- Result of `netmap_socket_sendmsg`: the return value, the ring (slot
mutations included, also on the failure paths, which never publish
`cur`/`avail`), and how many times `na->nm_txsync` was invoked. -/
structure SendRes where
  ret : Nat
  ring : NmRing
  txsyncCount : Nat
deriving DecidableEq, Repr

/-- netmap_socket_sendmsg (lines 233-319): ingest a scatter-gather list into
the TX ring.  `iov` is the list of caller segments (byte lists); `total_len`
is their total length.  On the two failure paths (`avail < iovcnt` precheck,
`avail == 0` inside the loop) the function returns 0 without publishing
`cur`/`avail` and without invoking `nm_txsync`. -/
def netmap_socket_sendmsg (r : NmRing) (iov : List (List Nat)) : SendRes :=
  let totalLen := (iov.map List.length).sum
  let cap := r.slot.length
  if r.avail < iov.length then ⟨0, r, 0⟩
  else
    match txSegs cap r.nr_buf_size iov ⟨r.slot, r.cur, r.cur, r.avail, true⟩ with
    | Sum.inl s => ⟨0, { r with slot := s.slots }, 0⟩
    | Sum.inr s =>
      let fin := s.slots.getD s.last default
      let slots2 := s.slots.set s.last { fin with morefrag := false }
      ⟨totalLen, { r with slot := slots2, cur := s.i, avail := s.avail }, 1⟩

/-! ### Drain path: netmap_socket_recvmsg -/

/-- Loop state of `netmap_socket_recvmsg`: slot cursor `i`, remaining `avail`,
the `morefrag` flag of the current slot, offset/remaining-size within the
current slot (`nm_frag_ofs`/`nm_frag_size`) together with the slot's buffer
`src`, destination segment index `j` with offset/remaining size, the running
`copied` count, and the bytes delivered so far in order (`out`, the
observable effect of the `copy_to_user` calls). -/
structure RxState where
  i : Nat
  avail : Nat
  morefrag : Bool
  nmOfs : Nat
  nmSize : Nat
  src : List Nat
  j : Nat
  iovOfs : Nat
  iovSize : Nat
  copied : Nat
  out : List Nat
deriving DecidableEq, Repr

/-- The `copy_to_user` step of the drain loop body: copy
`min(nm_frag_size, iov_frag_size)` bytes and advance both cursors. -/
def copyStep (s : RxState) : RxState :=
  let cs := min s.nmSize s.iovSize
  { s with out := s.out ++ (s.src.drop s.nmOfs).take cs,
           nmOfs := s.nmOfs + cs, nmSize := s.nmSize - cs,
           iovOfs := s.iovOfs + cs, iovSize := s.iovSize - cs,
           copied := s.copied + cs }

/-- The slot-switch assignments of the drain loop (`Take the next slot` in
the source): when advancing to slot `i2`, reload `morefrag`,
`nm_frag_ofs`/`nm_frag_size` and the source pointer from that slot and
decrement `avail`. -/
def advState (slots : List Slot) (i2 : Nat) (s : RxState) : RxState :=
  { s with i := i2, avail := s.avail - 1,
           morefrag := (slots.getD i2 default).morefrag,
           nmOfs := 0, nmSize := (slots.getD i2 default).len,
           src := (slots.getD i2 default).buf }

/-- The `if (nm_frag_size == 0)` branch of the drain loop body: on slot
exhaustion, break (`Sum.inr`) when the slot was the packet's last or no slot
is available, otherwise advance to the next slot and decrement `avail`. -/
def slotAdvanceStep (slots : List Slot) (s : RxState) : RxState ⊕ RxState :=
  if s.nmSize = 0 then
    if s.morefrag = false ∨ s.avail = 0 then Sum.inr s
    else Sum.inl (advState slots (NETMAP_RING_NEXT slots.length s.i) s)
  else Sum.inl s

/-- The `if (iov_frag_size == 0)` branch of the drain loop body: on
destination-segment exhaustion, advance to the next segment, or break
(`Sum.inr`) when none remains. -/
def iovAdvanceStep (iov : List Nat) (s : RxState) : RxState ⊕ RxState :=
  if s.iovSize = 0 then
    if iov.length ≤ s.j + 1 then Sum.inr { s with j := s.j + 1 }
    else Sum.inl { s with j := s.j + 1, iovOfs := 0, iovSize := iov.getD (s.j + 1) 0 }
  else Sum.inl s

/-- One iteration of the `while (copied < total_len)` loop body of
`netmap_socket_recvmsg`. -/
def rxIter (slots : List Slot) (iov : List Nat) (s : RxState) : RxState ⊕ RxState :=
  match slotAdvanceStep slots (copyStep s) with
  | Sum.inr s1 => Sum.inr s1
  | Sum.inl s1 => iovAdvanceStep iov s1

/-- The `while (copied < total_len)` loop of `netmap_socket_recvmsg`, with
explicit fuel.  The fuel passed by `netmap_socket_recvmsg` dominates the
loop's termination measure. -/
def rxLoop (slots : List Slot) (iov : List Nat) (totalLen : Nat) :
    Nat → RxState → RxState
  | 0, s => s
  | fuel + 1, s =>
    if s.copied < totalLen then
      match rxIter slots iov s with
      | Sum.inr s1 => s1
      | Sum.inl s1 => rxLoop slots iov totalLen fuel s1
    else s

/-- Result of `netmap_socket_recvmsg`: return value (`copied`), the bytes
delivered in order, the ring with `cur`/`avail` published, and whether the
`ran out of slots, with a pending incomplete packet` warning fired
(`!avail && morefrag` after the loop). -/
structure RxRes where
  ret : Nat
  out : List Nat
  ring : NmRing
  loss : Bool
deriving DecidableEq, Repr

/-- netmap_socket_recvmsg (lines 321-437): drain the ring into a
scatter-gather destination.  `iov` holds the destination segment lengths,
`totalLen` is the caller's requested length.  A spurious call (`avail == 0`)
returns 0 immediately.  (The source reads `iov[0]` before the loop; on an
empty destination list that read is out of bounds, here it defaults to a
zero-length segment.) -/
def netmap_socket_recvmsg (r : NmRing) (iov : List Nat) (totalLen : Nat) : RxRes :=
  if r.avail = 0 then ⟨0, [], r, false⟩
  else
    let sl := r.slot.getD r.cur default
    let s0 : RxState :=
      ⟨r.cur, r.avail, sl.morefrag, 0, sl.len, sl.buf, 0, 0, iov.getD 0 0, 0, []⟩
    let s := rxLoop r.slot iov totalLen (totalLen + r.avail + iov.length + 1) s0
    ⟨s.copied, s.out, { r with cur := s.i, avail := s.avail },
     (s.avail == 0) && s.morefrag⟩

/-! ### Mitigation coalescer -/

/-- Mitigation state: the `mit_pending` flag, whether `mit_timer` is armed,
and whether the attached interface has `IFCAP_NETMAP` in `if_capenable`
(read by the timer handler before notifying). -/
structure MitState where
  mit_pending : Bool
  timerArmed : Bool
  ifcapNetmap : Bool
deriving DecidableEq, Repr

/-- Outcome of a timer expiry: how many notifications (`netmap_common_irq`
calls) were emitted, and the state afterwards. -/
structure TimerOut where
  notified : Nat
  st : MitState
deriving DecidableEq, Repr

/-- generic_timer_handler (lines 48-72): on expiry with no pending work,
return `HRTIMER_NORESTART` (timer disarmed, nothing emitted); otherwise clear
`mit_pending`, send a notification if the interface is in netmap mode, restart
the timer (`netmap_mitigation_restart`, line 88-91) and return
`HRTIMER_RESTART`. -/
def generic_timer_handler (s : MitState) : TimerOut :=
  if s.mit_pending = false then
    { notified := 0, st := { s with timerArmed := false } }
  else
    { notified := if s.ifcapNetmap then 1 else 0,
      st := { s with mit_pending := false, timerArmed := true } }

/-! ### Specification-side helpers

The chunk decomposition that the ingest loop performs, and the chain of slots
a fragmented packet occupies, expressed as plain functions so that theorems
can speak about them. -/

/-- Concatenation of a list of lists. -/
def flat {α : Type} : List (List α) → List α
  | [] => []
  | c :: cs => c ++ flat cs

/-- Fuelled worker of `chunksOf`. -/
def chunksGo (bufsz : Nat) : Nat → List Nat → List (List Nat)
  | _, [] => []
  | 0, _ :: _ => []
  | fuel + 1, a :: rest =>
    let seg := a :: rest
    let m := min seg.length bufsz
    seg.take m :: chunksGo bufsz fuel (seg.drop m)

/-- Decomposition of one segment into the slot-sized chunks the ingest loop
writes: repeatedly `min(remaining, bufsz)` bytes. -/
def chunksOf (bufsz : Nat) (seg : List Nat) : List (List Nat) :=
  chunksGo bufsz seg.length seg

/-- All chunks an ingest call writes, in order. -/
def chunkList (bufsz : Nat) (iov : List (List Nat)) : List (List Nat) :=
  flat (iov.map (fun seg => chunksOf bufsz seg))

/-- Slot index `t` steps past `cur` on a ring of `cap` slots. -/
def idxAt (cap cur t : Nat) : Nat := (cur + t) % cap

/-- ChainAt slots cur chunks mlast: starting at index `cur`, consecutive ring
slots hold exactly the byte lists `chunks` (each nonempty), with `NS_MOREFRAG`
set on every slot of the chain except possibly the last, whose flag is
`mlast`. -/
def ChainAt (slots : List Slot) (cur : Nat) (chunks : List (List Nat))
    (mlast : Bool) : Prop :=
  cur < slots.length ∧ chunks.length ≤ slots.length ∧
  ∀ t, t < chunks.length →
    chunks.getD t [] ≠ [] ∧
    (slots.getD (idxAt slots.length cur t) default).len =
      (chunks.getD t []).length ∧
    (slots.getD (idxAt slots.length cur t) default).buf.take
      (chunks.getD t []).length = chunks.getD t [] ∧
    (slots.getD (idxAt slots.length cur t) default).morefrag =
      (if t + 1 < chunks.length then true else mlast)

instance (slots : List Slot) (cur : Nat) (chunks : List (List Nat))
    (mlast : Bool) : Decidable (ChainAt slots cur chunks mlast) := by
  unfold ChainAt
  exact instDecidableAnd

/-! ### Arithmetic and list helper lemmas -/

/-- Sum of the first `t` entries of a list of naturals. -/
def preN : List Nat → Nat → Nat
  | _, 0 => 0
  | [], _ + 1 => 0
  | a :: l, t + 1 => a + preN l t

/-- Byte offset where chunk `t` begins inside `flat cs`. -/
def preC (cs : List (List Nat)) (t : Nat) : Nat := preN (cs.map List.length) t

/-- The slot value the ingest loop leaves at the position of chunk `t`
(before the final `MOREFRAG` clearing): `len` is the chunk length, the flag
word is `NS_MOREFRAG` plus `NS_VNET_HDR` on the very first slot of the call,
and the buffer holds the chunk followed by the untouched tail of the
original buffer. -/
def wrSlot (slots0 : List Slot) (cap cur : Nat) (done : List (List Nat)) (t : Nat) : Slot :=
  ⟨(done.getD t []).length, true, decide (t = 0),
   done.getD t [] ++
     ((slots0.getD (idxAt cap cur t) default).buf.drop (done.getD t []).length)⟩

/-- Invariant of the ingest loop after writing the chunks `done`. -/
def TxMid (slots0 : List Slot) (cap cur avail0 : Nat) (done : List (List Nat))
    (s : TxState) : Prop :=
  s.slots.length = cap ∧
  s.i = idxAt cap cur done.length ∧
  s.avail = avail0 - done.length ∧
  done.length ≤ avail0 ∧
  s.vnet = decide (done.length = 0) ∧
  s.last = (if done.length = 0 then cur else idxAt cap cur (done.length - 1)) ∧
  (∀ t, t < done.length →
    s.slots.getD (idxAt cap cur t) default = wrSlot slots0 cap cur done t) ∧
  (∀ p, (∀ t, t < done.length → idxAt cap cur t ≠ p) →
    s.slots.getD p default = slots0.getD p default)

/-- The `NS_MOREFRAG` flag of chain slot `t`: set on every slot but the last,
whose flag is `mlast`. -/
def mfAt (chunks : List (List Nat)) (mlast : Bool) (t : Nat) : Bool :=
  if t + 1 < chunks.length then true else mlast

/-- Loop invariant of the drain loop at the top of an iteration. -/
def RxMid (slots : List Slot) (cur avail0 : Nat) (chunks : List (List Nat))
    (mlast : Bool) (iov : List Nat) (t o j u : Nat) (s : RxState) : Prop :=
  t < chunks.length ∧
  o < (chunks.getD t []).length ∧
  s.i = idxAt slots.length cur t ∧
  s.avail = avail0 - t ∧
  t ≤ avail0 ∧
  s.morefrag = mfAt chunks mlast t ∧
  s.nmOfs = o ∧
  s.nmSize = (chunks.getD t []).length - o ∧
  s.src = (slots.getD (idxAt slots.length cur t) default).buf ∧
  s.copied = preC chunks t + o ∧
  s.out = (flat chunks).take s.copied ∧
  s.j = j ∧ j < iov.length ∧
  s.iovOfs = u ∧ u ≤ iov.getD j 0 ∧
  s.iovSize = iov.getD j 0 - u ∧
  s.copied = preN iov j + u

/-- What the drain loop delivers on a fragment chain: `min(D, P)` bytes,
where `D` is the total destination capacity and `P` the packet length; the
last chain slot is never released; and when the destination can hold the
whole packet the loop stops exactly on the last chain slot with `avail`
decremented once per fragment boundary crossed. -/
def RxFinal (slots : List Slot) (cur avail0 : Nat) (chunks : List (List Nat))
    (mlast : Bool) (iov : List Nat) (f : RxState) : Prop :=
  f.copied = min iov.sum (flat chunks).length ∧
  f.out = (flat chunks).take (min iov.sum (flat chunks).length) ∧
  avail0 - (chunks.length - 1) ≤ f.avail ∧
  ((flat chunks).length ≤ iov.sum →
    f.i = idxAt slots.length cur (chunks.length - 1) ∧
    f.avail = avail0 - (chunks.length - 1) ∧
    f.morefrag = mlast)

/-- Collapse either side of a break/continue sum to its carried state. -/
def sumOut {α : Type} : α ⊕ α → α
  | Sum.inl a => a
  | Sum.inr a => a

/-- Ring of 4 empty slots of 1500 bytes each, `cur = 0`, `avail = 4` (the
spec's worked example). -/
def ringC3 : NmRing := ⟨List.replicate 4 default, 0, 4, 1500⟩

/-- Two input segments of 2000 and 1200 bytes (one logical 3200-byte packet). -/
def segsC3 : List (List Nat) := [List.replicate 2000 7, List.replicate 1200 9]

/-- Ring holding a three-fragment packet [1,2] [3,4] [5,6] starting at slot 0
with `MORE_FRAGMENTS` on the first two fragments, `avail = 3`. -/
def ringChain : NmRing :=
  ⟨[⟨2, true, false, [1, 2]⟩, ⟨2, true, false, [3, 4]⟩, ⟨2, false, false, [5, 6]⟩],
   0, 3, 2⟩

/-- Small ring of 2 empty slots of 2 bytes each. -/
def ringSmall : NmRing := ⟨List.replicate 2 default, 0, 2, 2⟩

theorem preN_zero (l : List Nat) : preN l 0 = 0 := by cases l <;> rfl

theorem preN_succ_of_lt : ∀ (l : List Nat) (t : Nat), t < l.length →
    preN l (t + 1) = preN l t + l.getD t 0 := by
  intro l
  induction l with
  | nil => intro t h; simp at h
  | cons a l ih =>
    intro t h
    cases t with
    | zero => simp [preN, preN_zero]
    | succ t =>
      have ht : t < l.length := by simpa using h
      simp [preN, ih t ht, Nat.add_assoc]

theorem preN_length : ∀ l : List Nat, preN l l.length = l.sum := by
  intro l
  induction l with
  | nil => rfl
  | cons a l ih => simp [preN, ih]

theorem preN_le_sum : ∀ (l : List Nat) (t : Nat), preN l t ≤ l.sum := by
  intro l
  induction l with
  | nil => intro t; cases t <;> simp [preN]
  | cons a l ih =>
    intro t
    cases t with
    | zero => simp [preN]
    | succ t => simp only [preN, List.sum_cons]; exact Nat.add_le_add_left (ih t) a

theorem preN_add_getD_le_sum (l : List Nat) (t : Nat) (ht : t < l.length) :
    preN l t + l.getD t 0 ≤ l.sum := by
  rw [← preN_succ_of_lt l t ht]; exact preN_le_sum l (t + 1)

theorem length_flat : ∀ cs : List (List Nat), (flat cs).length = (cs.map List.length).sum := by
  intro cs
  induction cs with
  | nil => rfl
  | cons c cs ih => simp [flat, ih]

theorem preC_zero (cs : List (List Nat)) : preC cs 0 = 0 := preN_zero _

theorem preC_succ_of_lt (cs : List (List Nat)) (t : Nat) (ht : t < cs.length) :
    preC cs (t + 1) = preC cs t + (cs.getD t []).length := by
  unfold preC
  rw [preN_succ_of_lt _ t (by simpa using ht)]
  congr 1
  induction cs generalizing t with
  | nil => simp at ht
  | cons c cs ih =>
    cases t with
    | zero => simp
    | succ t => simpa using ih t (by simpa using ht)

theorem preC_length (cs : List (List Nat)) : preC cs cs.length = (flat cs).length := by
  unfold preC
  rw [length_flat]
  have := preN_length (cs.map List.length)
  simpa using this

theorem preC_le_length (cs : List (List Nat)) (t : Nat) :
    preC cs t ≤ (flat cs).length := by
  unfold preC; rw [length_flat]; exact preN_le_sum _ t

/-- Dropping the bytes before position `o` of chunk `t` exposes the rest of
chunk `t` followed by the remaining chunks. -/
theorem flat_drop_pre : ∀ (cs : List (List Nat)) (t o : Nat), t < cs.length →
    o ≤ (cs.getD t []).length →
    (flat cs).drop (preC cs t + o) = (cs.getD t []).drop o ++ flat (cs.drop (t + 1)) := by
  intro cs
  induction cs with
  | nil => intro t o h; simp at h
  | cons c cs ih =>
    intro t o ht ho
    cases t with
    | zero =>
      simp only [List.getD_cons_zero] at ho ⊢
      simp only [preC_zero, Nat.zero_add, flat]
      rw [List.drop_append_of_le_length ho]
      simp
    | succ t =>
      have ht' : t < cs.length := by simpa using ht
      have ho' : o ≤ (cs.getD t []).length := by simpa using ho
      have hpre : preC (c :: cs) (t + 1) = c.length + preC cs t := rfl
      rw [hpre, Nat.add_assoc]
      simp only [flat, List.getD_cons_succ, List.drop_succ_cons]
      rw [List.drop_append]
      exact ih t o ht' ho'

theorem flat_take_copy (cs : List (List Nat)) (t o n : Nat) (ht : t < cs.length)
    (hon : o + n ≤ (cs.getD t []).length) :
    (flat cs).take (preC cs t + o + n) =
      (flat cs).take (preC cs t + o) ++ ((cs.getD t []).drop o).take n := by
  rw [List.take_add]
  congr 1
  rw [flat_drop_pre cs t o ht (Nat.le_trans (Nat.le_add_right o n) hon)]
  rw [List.take_append_of_le_length]
  rw [List.length_drop]
  omega

/-! ### Index arithmetic lemmas -/

theorem NETMAP_RING_NEXT_lt {cap i : Nat} (h : i < cap) :
    NETMAP_RING_NEXT cap i < cap := by
  unfold NETMAP_RING_NEXT
  split <;> omega

theorem NETMAP_RING_NEXT_eq_mod {cap i : Nat} (h : i < cap) :
    NETMAP_RING_NEXT cap i = (i + 1) % cap := by
  unfold NETMAP_RING_NEXT
  by_cases h1 : i + 1 = cap
  · rw [if_pos h1, h1, Nat.mod_self]
  · rw [if_neg h1, Nat.mod_eq_of_lt (by omega)]

theorem idxAt_lt {cap : Nat} (hcap : 0 < cap) (cur t : Nat) :
    idxAt cap cur t < cap := Nat.mod_lt _ hcap

theorem idxAt_zero {cap cur : Nat} (h : cur < cap) : idxAt cap cur 0 = cur := by
  unfold idxAt
  rw [Nat.add_zero, Nat.mod_eq_of_lt h]

theorem idxAt_succ {cap : Nat} (hcap : 0 < cap) (cur t : Nat) :
    NETMAP_RING_NEXT cap (idxAt cap cur t) = idxAt cap cur (t + 1) := by
  rw [NETMAP_RING_NEXT_eq_mod (idxAt_lt hcap cur t)]
  unfold idxAt
  rw [Nat.mod_add_mod, Nat.add_assoc]

theorem idxAt_inj {cap cur t t' : Nat} (ht : t < cap) (ht' : t' < cap)
    (h : idxAt cap cur t = idxAt cap cur t') : t = t' := by
  unfold idxAt at h
  have h2 : t ≡ t' [MOD cap] := Nat.ModEq.add_left_cancel' cur h
  unfold Nat.ModEq at h2
  rw [Nat.mod_eq_of_lt ht, Nat.mod_eq_of_lt ht'] at h2
  exact h2

/-! ### Chunk decomposition lemmas -/

theorem chunksOf_nil (bufsz : Nat) : chunksOf bufsz [] = [] := rfl

theorem chunksGo_eq_chunksOf {bufsz : Nat} (hb : 1 ≤ bufsz) :
    ∀ (f : Nat) (seg : List Nat), seg.length ≤ f →
      chunksGo bufsz f seg = chunksOf bufsz seg := by
  intro f
  induction f using Nat.strong_induction_on with
  | _ f ih =>
    intro seg hf
    cases seg with
    | nil => cases f <;> rfl
    | cons a rest =>
      cases f with
      | zero => simp at hf
      | succ f =>
        have hlen : (a :: rest).length = rest.length + 1 := by simp
        have hm1 : 1 ≤ min (a :: rest).length bufsz := by
          simp only [hlen]
          omega
        show (a :: rest).take (min (a :: rest).length bufsz)
              :: chunksGo bufsz f ((a :: rest).drop (min (a :: rest).length bufsz))
            = chunksOf bufsz (a :: rest)
        have hstep1 : chunksGo bufsz f ((a :: rest).drop (min (a :: rest).length bufsz))
            = chunksOf bufsz ((a :: rest).drop (min (a :: rest).length bufsz)) := by
          apply ih f (Nat.lt_succ_self f)
          rw [List.length_drop]
          simp only [hlen] at hf ⊢
          omega
        have hstep2 : chunksOf bufsz (a :: rest)
            = (a :: rest).take (min (a :: rest).length bufsz)
              :: chunksGo bufsz rest.length ((a :: rest).drop (min (a :: rest).length bufsz)) := by
          show chunksGo bufsz (a :: rest).length (a :: rest) = _
          rw [hlen]
          rfl
        have hstep3 : chunksGo bufsz rest.length ((a :: rest).drop (min (a :: rest).length bufsz))
            = chunksOf bufsz ((a :: rest).drop (min (a :: rest).length bufsz)) := by
          apply ih rest.length (by simp only [hlen] at hf; omega)
          rw [List.length_drop]
          simp only [hlen]
          omega
        rw [hstep1, hstep2, hstep3]

theorem chunksOf_cons {bufsz : Nat} (hb : 1 ≤ bufsz) (seg : List Nat) (hs : seg ≠ []) :
    chunksOf bufsz seg =
      seg.take (min seg.length bufsz) :: chunksOf bufsz (seg.drop (min seg.length bufsz)) := by
  match seg with
  | [] => exact absurd rfl hs
  | a :: rest =>
    show chunksGo bufsz (a :: rest).length (a :: rest) = _
    have hlen : (a :: rest).length = rest.length + 1 := by simp
    rw [hlen]
    show (a :: rest).take (min (a :: rest).length bufsz)
          :: chunksGo bufsz rest.length ((a :: rest).drop (min (a :: rest).length bufsz)) = _
    congr 1
    apply chunksGo_eq_chunksOf hb
    rw [List.length_drop]
    have hm1 : 1 ≤ min (a :: rest).length bufsz := by
      simp only [hlen]; omega
    omega

theorem min_len_bufsz_pos {bufsz : Nat} (hb : 1 ≤ bufsz) {seg : List Nat}
    (hs : seg ≠ []) : 1 ≤ min seg.length bufsz := by
  have : 0 < seg.length := List.length_pos.mpr hs
  omega

theorem flat_chunksOf_aux {bufsz : Nat} (hb : 1 ≤ bufsz) :
    ∀ (n : Nat) (seg : List Nat), seg.length ≤ n →
      flat (chunksOf bufsz seg) = seg := by
  intro n
  induction n with
  | zero =>
    intro seg h
    have : seg = [] := List.eq_nil_of_length_eq_zero (by omega)
    subst this; rfl
  | succ n ih =>
    intro seg h
    by_cases hs : seg = []
    · subst hs; rfl
    · rw [chunksOf_cons hb seg hs]
      simp only [flat]
      rw [ih (seg.drop (min seg.length bufsz)) (by
        rw [List.length_drop]
        have := min_len_bufsz_pos hb hs
        omega)]
      exact List.take_append_drop _ _

theorem flat_chunksOf {bufsz : Nat} (hb : 1 ≤ bufsz) (seg : List Nat) :
    flat (chunksOf bufsz seg) = seg :=
  flat_chunksOf_aux hb seg.length seg (Nat.le_refl _)

theorem mem_chunksOf_ne_nil_aux {bufsz : Nat} (hb : 1 ≤ bufsz) :
    ∀ (n : Nat) (seg : List Nat), seg.length ≤ n →
      ∀ c ∈ chunksOf bufsz seg, c ≠ [] := by
  intro n
  induction n with
  | zero =>
    intro seg h c hc
    have : seg = [] := List.eq_nil_of_length_eq_zero (by omega)
    subst this; simp [chunksOf_nil] at hc
  | succ n ih =>
    intro seg h c hc
    by_cases hs : seg = []
    · subst hs; simp [chunksOf_nil] at hc
    · rw [chunksOf_cons hb seg hs] at hc
      rcases List.mem_cons.mp hc with h1 | h2
      · subst h1
        apply List.ne_nil_of_length_pos
        rw [List.length_take]
        have h3 := min_len_bufsz_pos hb hs
        have : 0 < seg.length := List.length_pos.mpr hs
        omega
      · exact ih (seg.drop (min seg.length bufsz)) (by
          rw [List.length_drop]
          have := min_len_bufsz_pos hb hs
          omega) c h2

theorem mem_chunksOf_ne_nil {bufsz : Nat} (hb : 1 ≤ bufsz) (seg : List Nat) :
    ∀ c ∈ chunksOf bufsz seg, c ≠ [] :=
  mem_chunksOf_ne_nil_aux hb seg.length seg (Nat.le_refl _)

theorem chunkList_nil (bufsz : Nat) : chunkList bufsz [] = [] := rfl

theorem chunkList_cons (bufsz : Nat) (seg : List Nat) (rest : List (List Nat)) :
    chunkList bufsz (seg :: rest) = chunksOf bufsz seg ++ chunkList bufsz rest := rfl

theorem flat_append {α : Type} : ∀ a b : List (List α), flat (a ++ b) = flat a ++ flat b := by
  intro a b
  induction a with
  | nil => rfl
  | cons c cs ih => simp [flat, ih]

theorem flat_chunkList {bufsz : Nat} (hb : 1 ≤ bufsz) :
    ∀ iov : List (List Nat), flat (chunkList bufsz iov) = flat iov := by
  intro iov
  induction iov with
  | nil => rfl
  | cons seg rest ih =>
    rw [chunkList_cons, flat_append, ih, flat_chunksOf hb]
    rfl

theorem mem_chunkList_ne_nil {bufsz : Nat} (hb : 1 ≤ bufsz) :
    ∀ (iov : List (List Nat)), ∀ c ∈ chunkList bufsz iov, c ≠ [] := by
  intro iov
  induction iov with
  | nil => intro c hc; simp [chunkList_nil] at hc
  | cons seg rest ih =>
    intro c hc
    rw [chunkList_cons] at hc
    rcases List.mem_append.mp hc with h1 | h2
    · exact mem_chunksOf_ne_nil hb seg c h1
    · exact ih c h2

theorem getD_mem_of_lt {α : Type} [Inhabited α] {l : List α} {t : Nat} (d : α)
    (ht : t < l.length) : l.getD t d ∈ l := by
  rw [List.getD_eq_getElem?_getD, List.getElem?_eq_getElem ht]
  exact List.getElem_mem ht

theorem sum_map_length_eq_length_flat (iov : List (List Nat)) :
    (iov.map List.length).sum = (flat iov).length := (length_flat iov).symm

theorem getD_set_eq {α : Type} [Inhabited α] {l : List α} {p : Nat} (a : α)
    (h : p < l.length) : (l.set p a).getD p default = a := by
  rw [List.getD_eq_getElem?_getD, List.getElem?_set_self h]
  rfl

theorem getD_set_ne {α : Type} [Inhabited α] {l : List α} {p q : Nat} (a : α)
    (h : p ≠ q) : (l.set p a).getD q default = l.getD q default := by
  rw [List.getD_eq_getElem?_getD, List.getElem?_set_ne h]
  exact (List.getD_eq_getElem?_getD _ _ _).symm

theorem getD_append_length {α : Type} (l : List α) (x : α) (d : α) :
    (l ++ [x]).getD l.length d = x := by
  rw [List.getD_eq_getElem?_getD, List.getElem?_append_right (Nat.le_refl _)]
  simp

/-! ### Characterization of the ingest loop

`TxMid slots0 cap cur avail0 done s` says the ingest loop, started on slot
array `slots0` at index `cur` with `avail0` available slots, has so far
written exactly the chunks `done` and reached state `s`. -/

theorem wrSlot_append_left (slots0 : List Slot) (cap cur : Nat)
    (done extra : List (List Nat)) (t : Nat) (ht : t < done.length) :
    wrSlot slots0 cap cur (done ++ extra) t = wrSlot slots0 cap cur done t := by
  unfold wrSlot
  rw [List.getD_append _ _ _ _ ht]

theorem txSeg_char {cap bufsz cur avail0 : Nat} {slots0 : List Slot}
    (hb : 1 ≤ bufsz) (hcur : cur < cap) (hcap : slots0.length = cap)
    (hav : avail0 ≤ cap) :
    ∀ (fuel : Nat) (seg : List Nat) (done : List (List Nat)) (s : TxState),
      TxMid slots0 cap cur avail0 done s →
      done.length + (chunksOf bufsz seg).length ≤ avail0 →
      s.avail + 1 ≤ fuel →
      ∃ s', txSeg cap bufsz fuel seg s = Sum.inr s' ∧
        TxMid slots0 cap cur avail0 (done ++ chunksOf bufsz seg) s' := by
  have hcap0 : 0 < cap := Nat.lt_of_le_of_lt (Nat.zero_le cur) hcur
  intro fuel
  induction fuel with
  | zero => intro seg done s _ _ hfuel; omega
  | succ fuel ih =>
    intro seg done s hmid hroom hfuel
    cases seg with
    | nil =>
      refine ⟨s, rfl, ?_⟩
      rw [chunksOf_nil, List.append_nil]
      exact hmid
    | cons a rest =>
      obtain ⟨hL, hI, hA, hN, hV, hLast, hWr, hUn⟩ := hmid
      have hsne : (a :: rest) ≠ [] := List.cons_ne_nil a rest
      have hchunks := chunksOf_cons hb (a :: rest) hsne
      have hkpos : 1 ≤ (chunksOf bufsz (a :: rest)).length := by
        rw [hchunks]; simp
      have hnle : done.length < avail0 := by omega
      have havne : ¬ s.avail = 0 := by omega
      have hm1 : 1 ≤ min (a :: rest).length bufsz := min_len_bufsz_pos hb hsne
      have hmle : min (a :: rest).length bufsz ≤ (a :: rest).length :=
        Nat.min_le_left _ _
      -- the position being written
      have hplt : idxAt cap cur done.length < cap := idxAt_lt hcap0 cur _
      have hidx_ne : ∀ t, t < done.length → idxAt cap cur t ≠ idxAt cap cur done.length := by
        intro t ht hEq
        have := idxAt_inj (by omega) (by omega) hEq
        omega
      have hold : s.slots.getD (idxAt cap cur done.length) default
          = slots0.getD (idxAt cap cur done.length) default := hUn _ hidx_ne
      -- unfold one loop iteration
      rw [show txSeg cap bufsz (fuel + 1) (a :: rest) s
          = txSeg cap bufsz fuel ((a :: rest).drop (min (a :: rest).length bufsz))
              { slots := s.slots.set s.i
                  ⟨min (a :: rest).length bufsz, true, s.vnet,
                   (a :: rest).take (min (a :: rest).length bufsz) ++
                     (s.slots.getD s.i default).buf.drop (min (a :: rest).length bufsz)⟩,
                i := NETMAP_RING_NEXT cap s.i, last := s.i,
                avail := s.avail - 1, vnet := false } by
        show (if s.avail = 0 then Sum.inl s else _) = _
        rw [if_neg havne]]
      -- the new state satisfies the invariant for one more chunk
      have hmid1 : TxMid slots0 cap cur avail0
          (done ++ [(a :: rest).take (min (a :: rest).length bufsz)])
          { slots := s.slots.set s.i
              ⟨min (a :: rest).length bufsz, true, s.vnet,
               (a :: rest).take (min (a :: rest).length bufsz) ++
                 (s.slots.getD s.i default).buf.drop (min (a :: rest).length bufsz)⟩,
            i := NETMAP_RING_NEXT cap s.i, last := s.i,
            avail := s.avail - 1, vnet := false } := by
        have hlen1 : (done ++ [(a :: rest).take (min (a :: rest).length bufsz)]).length
            = done.length + 1 := by
          rw [List.length_append]
          rfl
        refine ⟨?_, ?_, ?_, ?_, ?_, ?_, ?_, ?_⟩
        · show (s.slots.set s.i _).length = cap
          rw [List.length_set, hL]
        · show NETMAP_RING_NEXT cap s.i = idxAt cap cur _
          rw [hlen1, hI, idxAt_succ hcap0]
        · show s.avail - 1 = avail0 - _
          rw [hlen1, hA]
          omega
        · rw [hlen1]
          omega
        · show false = decide _
          rw [hlen1]
          simp
        · show s.i = if _ = 0 then cur else idxAt cap cur _
          rw [hlen1, hI]
          simp
        · intro t ht
          rw [hlen1] at ht
          rcases Nat.lt_or_ge t done.length with ht' | ht'
          · show (s.slots.set s.i _).getD (idxAt cap cur t) default = _
            rw [hI, getD_set_ne _ (fun hEq => hidx_ne t ht' hEq.symm)]
            rw [hWr t ht']
            exact (wrSlot_append_left slots0 cap cur done _ t ht').symm
          · have hteq : t = done.length := by omega
            subst hteq
            show (s.slots.set s.i _).getD (idxAt cap cur done.length) default = _
            rw [hI, getD_set_eq _ (by rw [hL]; exact hplt)]
            unfold wrSlot
            rw [getD_append_length, List.length_take, Nat.min_eq_left hmle, hV, ← hold]
        · intro p hp
          rw [hlen1] at hp
          show (s.slots.set s.i _).getD p default = _
          rw [hI, getD_set_ne _ (hp done.length (by omega))]
          exact hUn p (fun t ht => hp t (by omega))
      have hsplit : (chunksOf bufsz (a :: rest)).length
          = (chunksOf bufsz ((a :: rest).drop (min (a :: rest).length bufsz))).length + 1 := by
        rw [hchunks, List.length_cons]
      have hroom1 : (done ++ [(a :: rest).take (min (a :: rest).length bufsz)]).length
          + (chunksOf bufsz ((a :: rest).drop (min (a :: rest).length bufsz))).length
          ≤ avail0 := by
        rw [hsplit] at hroom
        rw [List.length_append, List.length_singleton]
        omega
      have hfuel1 : s.avail - 1 + 1 ≤ fuel := by omega
      obtain ⟨s', heq, hmid'⟩ := ih _ _ _ hmid1 hroom1 hfuel1
      refine ⟨s', heq, ?_⟩
      rw [List.append_assoc, List.singleton_append, ← hchunks] at hmid'
      exact hmid'

theorem txSegs_char {cap bufsz cur avail0 : Nat} {slots0 : List Slot}
    (hb : 1 ≤ bufsz) (hcur : cur < cap) (hcap : slots0.length = cap)
    (hav : avail0 ≤ cap) :
    ∀ (iov : List (List Nat)) (done : List (List Nat)) (s : TxState),
      TxMid slots0 cap cur avail0 done s →
      done.length + (chunkList bufsz iov).length ≤ avail0 →
      ∃ s', txSegs cap bufsz iov s = Sum.inr s' ∧
        TxMid slots0 cap cur avail0 (done ++ chunkList bufsz iov) s' := by
  intro iov
  induction iov with
  | nil =>
    intro done s hmid _
    refine ⟨s, rfl, ?_⟩
    rw [chunkList_nil, List.append_nil]
    exact hmid
  | cons seg rest ih =>
    intro done s hmid hroom
    have hlen : (chunkList bufsz (seg :: rest)).length
        = (chunksOf bufsz seg).length + (chunkList bufsz rest).length := by
      rw [chunkList_cons, List.length_append]
    obtain ⟨s1, heq1, hmid1⟩ := txSeg_char hb hcur hcap hav
      (seg.length + s.avail + 1) seg done s hmid (by omega) (by omega)
    obtain ⟨s2, heq2, hmid2⟩ := ih (done ++ chunksOf bufsz seg) s1 hmid1
      (by rw [List.length_append]; omega)
    refine ⟨s2, ?_, ?_⟩
    · show (match txSeg cap bufsz (seg.length + s.avail + 1) seg s with
        | Sum.inl s1 => Sum.inl s1
        | Sum.inr s1 => txSegs cap bufsz rest s1) = Sum.inr s2
      rw [heq1]
      exact heq2
    · rw [chunkList_cons, ← List.append_assoc]
      exact hmid2

theorem sendmsg_char {r : NmRing} {iov : List (List Nat)}
    (hcur : r.cur < r.slot.length) (hav : r.avail ≤ r.slot.length)
    (hb : 1 ≤ r.nr_buf_size)
    (hcnt : iov.length ≤ r.avail)
    (hk : (chunkList r.nr_buf_size iov).length ≤ r.avail) :
    (netmap_socket_sendmsg r iov).ret = (iov.map List.length).sum ∧
    (netmap_socket_sendmsg r iov).txsyncCount = 1 ∧
    (netmap_socket_sendmsg r iov).ring.slot.length = r.slot.length ∧
    (netmap_socket_sendmsg r iov).ring.cur
      = idxAt r.slot.length r.cur (chunkList r.nr_buf_size iov).length ∧
    (netmap_socket_sendmsg r iov).ring.avail
      = r.avail - (chunkList r.nr_buf_size iov).length ∧
    (netmap_socket_sendmsg r iov).ring.nr_buf_size = r.nr_buf_size ∧
    (0 < (chunkList r.nr_buf_size iov).length →
      ChainAt (netmap_socket_sendmsg r iov).ring.slot r.cur
        (chunkList r.nr_buf_size iov) false) := by
  have hcap0 : 0 < r.slot.length := Nat.lt_of_le_of_lt (Nat.zero_le _) hcur
  have hmid0 : TxMid r.slot r.slot.length r.cur r.avail []
      ⟨r.slot, r.cur, r.cur, r.avail, true⟩ := by
    refine ⟨rfl, ?_, ?_, ?_, ?_, ?_, ?_, ?_⟩
    · show r.cur = idxAt r.slot.length r.cur 0
      exact (idxAt_zero hcur).symm
    · show r.avail = r.avail - 0
      omega
    · exact Nat.zero_le _
    · simp
    · simp
    · intro t ht; simp at ht
    · intro p _; rfl
  obtain ⟨s', heq, hmid⟩ := txSegs_char hb hcur rfl hav iov []
    ⟨r.slot, r.cur, r.cur, r.avail, true⟩ hmid0 (by simpa using hk)
  rw [List.nil_append] at hmid
  obtain ⟨hL, hI, hA, hN, hV, hLast, hWr, hUn⟩ := hmid
  have hres : netmap_socket_sendmsg r iov
      = ⟨(iov.map List.length).sum,
         { r with
           slot := s'.slots.set s'.last
             { s'.slots.getD s'.last default with morefrag := false },
           cur := s'.i, avail := s'.avail }, 1⟩ := by
    unfold netmap_socket_sendmsg
    rw [if_neg (Nat.not_lt.mpr hcnt), heq]
  rw [hres]
  set k := (chunkList r.nr_buf_size iov).length with hkdef
  refine ⟨rfl, rfl, ?_, ?_, ?_, rfl, ?_⟩
  · show (s'.slots.set _ _).length = r.slot.length
    rw [List.length_set, hL]
  · exact hI
  · exact hA
  · intro hkpos
    have hklt : k ≤ r.slot.length := Nat.le_trans hk hav
    have hlast : s'.last = idxAt r.slot.length r.cur (k - 1) := by
      rw [hLast, if_neg (by omega)]
    have hL2 : (s'.slots.set s'.last
        { s'.slots.getD s'.last default with morefrag := false }).length
        = r.slot.length := by
      rw [List.length_set, hL]
    refine ⟨?_, ?_, ?_⟩
    · rw [hL2]; exact hcur
    · rw [hL2]; exact hklt
    · intro t ht
      have hne : (chunkList r.nr_buf_size iov).getD t [] ≠ [] :=
        mem_chunkList_ne_nil hb iov _ (getD_mem_of_lt [] ht)
      have hfin : s'.slots.getD s'.last default
          = wrSlot r.slot r.slot.length r.cur (chunkList r.nr_buf_size iov) (k - 1) := by
        rw [hlast]
        exact hWr (k - 1) (by omega)
      rcases Nat.lt_or_ge t (k - 1) with ht' | ht'
      · have hgd : (s'.slots.set s'.last
            { s'.slots.getD s'.last default with morefrag := false }).getD
            (idxAt r.slot.length r.cur t) default
            = wrSlot r.slot r.slot.length r.cur (chunkList r.nr_buf_size iov) t := by
          rw [hlast, getD_set_ne _ (by
            intro hEq
            have := @idxAt_inj r.slot.length r.cur (k - 1) t (by omega) (by omega) hEq
            omega)]
          exact hWr t ht
        rw [hL2, hgd]
        unfold wrSlot
        refine ⟨hne, rfl, ?_, ?_⟩
        · exact List.take_left _ _
        · simp only []
          rw [if_pos (by omega)]
      · have hteq : t = k - 1 := by omega
        subst hteq
        have hgd : (s'.slots.set s'.last
            { s'.slots.getD s'.last default with morefrag := false }).getD
            (idxAt r.slot.length r.cur (k - 1)) default
            = { s'.slots.getD s'.last default with morefrag := false } := by
          rw [hlast]
          exact getD_set_eq _ (by rw [hL]; exact idxAt_lt hcap0 _ _)
        rw [hL2, hgd, hfin]
        unfold wrSlot
        refine ⟨hne, rfl, ?_, ?_⟩
        · exact List.take_left _ _
        · simp only []
          rw [if_neg (by omega)]

/-! ### Characterization of the drain loop

`RxMid` is the invariant of the `while (copied < total_len)` loop at the top
of an iteration, when the ring holds a fragment chain `chunks` starting at
`cur`: the loop is at byte `o` of chunk `t` and at byte `u` of destination
segment `j`. -/

theorem preN_nil (t : Nat) : preN [] t = 0 := by cases t <;> rfl

theorem preN_mono (l : List Nat) : ∀ {t t' : Nat}, t ≤ t' → preN l t ≤ preN l t' := by
  induction l with
  | nil => intro t t' _; rw [preN_nil, preN_nil]
  | cons a l ih =>
    intro t t' htt
    cases t with
    | zero => rw [preN_zero]; exact Nat.zero_le _
    | succ t =>
      cases t' with
      | zero => omega
      | succ t' =>
        show a + preN l t ≤ a + preN l t'
        exact Nat.add_le_add_left (ih (by omega)) a

theorem preC_add_lt {chunks : List (List Nat)} {t o : Nat} (ht : t < chunks.length)
    (ho : o < (chunks.getD t []).length) :
    preC chunks t + o < (flat chunks).length := by
  have h1 : preC chunks t + o < preC chunks (t + 1) := by
    rw [preC_succ_of_lt chunks t ht]; omega
  have h2 : preC chunks (t + 1) ≤ preC chunks chunks.length := preN_mono _ (by omega)
  rw [preC_length] at h2
  omega

theorem copied_le_sum {iov : List Nat} {j u : Nat} (hj : j < iov.length)
    (hu : u ≤ iov.getD j 0) : preN iov j + u ≤ iov.sum :=
  Nat.le_trans (by omega) (preN_add_getD_le_sum iov j hj)

theorem copied_eq_sum {iov : List Nat} {j u : Nat} (hj : j < iov.length)
    (hu : u = iov.getD j 0) (hlast : iov.length ≤ j + 1) :
    preN iov j + u = iov.sum := by
  have hje : j + 1 = iov.length := by omega
  rw [hu, ← preN_succ_of_lt _ j hj, hje, preN_length]

theorem take_drop_of_take_eq {buf c : List Nat} (h : buf.take c.length = c)
    {o cs : Nat} (hocs : o + cs ≤ c.length) :
    (c.drop o).take cs = (buf.drop o).take cs := by
  rw [← h, List.drop_take, List.take_take, Nat.min_eq_left (by omega)]

theorem rxFinal_destBreak {slots : List Slot} {cur avail0 : Nat}
    {chunks : List (List Nat)} {mlast : Bool} {iov : List Nat} (f : RxState)
    (hfc : f.copied = iov.sum) (hflt : f.copied < (flat chunks).length)
    (hout : f.out = (flat chunks).take f.copied)
    (hav : avail0 - (chunks.length - 1) ≤ f.avail) :
    RxFinal slots cur avail0 chunks mlast iov f := by
  have hmin : min iov.sum (flat chunks).length = iov.sum := Nat.min_eq_left (by omega)
  refine ⟨by rw [hmin]; exact hfc, by rw [hmin, ← hfc]; exact hout, hav, ?_⟩
  intro hPD
  omega

theorem rxFinal_packetEnd {slots : List Slot} {cur avail0 : Nat}
    {chunks : List (List Nat)} {mlast : Bool} {iov : List Nat} (f : RxState)
    (hfc : f.copied = (flat chunks).length) (hfD : f.copied ≤ iov.sum)
    (hout : f.out = (flat chunks).take f.copied)
    (hi : f.i = idxAt slots.length cur (chunks.length - 1))
    (hav : f.avail = avail0 - (chunks.length - 1))
    (hmfg : f.morefrag = mlast) :
    RxFinal slots cur avail0 chunks mlast iov f := by
  have hmin : min iov.sum (flat chunks).length = (flat chunks).length :=
    Nat.min_eq_right (by omega)
  exact ⟨by rw [hmin]; exact hfc, by rw [hmin, ← hfc]; exact hout,
    by omega, fun _ => ⟨hi, hav, hmfg⟩⟩

theorem rxFinal_exit {slots : List Slot} {cur avail0 : Nat}
    {chunks : List (List Nat)} {mlast : Bool} {iov : List Nat} {T : Nat}
    (s : RxState)
    (hTM : min iov.sum (flat chunks).length ≤ T)
    (hTc : T ≤ s.copied)
    (hflt : s.copied < (flat chunks).length)
    (hcpD : s.copied ≤ iov.sum)
    (hout : s.out = (flat chunks).take s.copied)
    (hav : avail0 - (chunks.length - 1) ≤ s.avail) :
    RxFinal slots cur avail0 chunks mlast iov s := by
  have hDP : iov.sum < (flat chunks).length := by
    rcases Nat.le_total (flat chunks).length iov.sum with h | h
    · rw [Nat.min_eq_right h] at hTM; omega
    · rcases Nat.lt_or_ge iov.sum (flat chunks).length with h2 | h2
      · exact h2
      · omega
  have hmin : min iov.sum (flat chunks).length = iov.sum := Nat.min_eq_left (by omega)
  have hfc : s.copied = iov.sum := by rw [hmin] at hTM; omega
  exact rxFinal_destBreak s hfc hflt hout hav

theorem rxLoop_char {slots : List Slot} {cur avail0 : Nat} {chunks : List (List Nat)}
    {mlast : Bool} {iov : List Nat} {T : Nat}
    (hchain : ChainAt slots cur chunks mlast)
    (hmf : mlast = false → chunks.length ≤ avail0)
    (hmt : mlast = true → avail0 + 1 = chunks.length)
    (hTM : min iov.sum (flat chunks).length ≤ T) :
    ∀ (fuel t o j u : Nat) (s : RxState),
      RxMid slots cur avail0 chunks mlast iov t o j u s →
      (T - s.copied) + s.avail + (iov.length - s.j) + 1 ≤ fuel →
      RxFinal slots cur avail0 chunks mlast iov (rxLoop slots iov T fuel s) := by
  obtain ⟨hcur, hkcap, hch⟩ := hchain
  have hcap0 : 0 < slots.length := Nat.lt_of_le_of_lt (Nat.zero_le cur) hcur
  intro fuel
  induction fuel with
  | zero => intro t o j u s _ hfl; omega
  | succ fuel ih =>
    intro t o j u s hmid hfl
    obtain ⟨ht, ho, hI, hA, hT0, hMF, hNO, hNS, hSRC, hCP, hOUT, hJ, hJlt, hIO,
      hUle, hIS, hCPJ⟩ := hmid
    have hcplt : s.copied < (flat chunks).length := by
      rw [hCP]; exact preC_add_lt ht ho
    have hcpleD : s.copied ≤ iov.sum := by
      rw [hCPJ]; exact copied_le_sum hJlt hUle
    have hk1 : 1 ≤ chunks.length := by omega
    have hbuf : (slots.getD (idxAt slots.length cur t) default).buf.take
        (chunks.getD t []).length = chunks.getD t [] := (hch t ht).2.2.1
    have hnm_pos : 0 < s.nmSize := by omega
    show RxFinal slots cur avail0 chunks mlast iov
      (if s.copied < T then
        match rxIter slots iov s with
        | Sum.inr s1 => s1
        | Sum.inl s1 => rxLoop slots iov T fuel s1
       else s)
    by_cases hcl : s.copied < T
    · rw [if_pos hcl]
      by_cases hisz : s.iovSize = 0
      · -- current destination segment is exhausted before the copy
        have hueq : u = iov.getD j 0 := by omega
        have hcopy : copyStep s = s := by
          have hm0 : min s.nmSize s.iovSize = 0 := by
            rw [hisz]
            exact Nat.min_zero _
          unfold copyStep
          rw [hm0]
          simp
        have hslot : slotAdvanceStep slots s = Sum.inl s := by
          unfold slotAdvanceStep
          rw [if_neg (by omega : ¬ s.nmSize = 0)]
        have hiter : rxIter slots iov s = iovAdvanceStep iov s := by
          unfold rxIter
          rw [hcopy, hslot]
        rw [hiter]
        by_cases hjend : iov.length ≤ s.j + 1
        · have hio : iovAdvanceStep iov s = Sum.inr { s with j := s.j + 1 } := by
            unfold iovAdvanceStep
            rw [if_pos hisz, if_pos hjend]
          rw [hio]
          show RxFinal slots cur avail0 chunks mlast iov { s with j := s.j + 1 }
          apply rxFinal_destBreak
          · show s.copied = iov.sum
            rw [hCPJ]
            exact copied_eq_sum hJlt hueq (by omega)
          · exact hcplt
          · exact hOUT
          · show avail0 - (chunks.length - 1) ≤ s.avail
            omega
        · have hio : iovAdvanceStep iov s
              = Sum.inl { s with j := s.j + 1, iovOfs := 0,
                                 iovSize := iov.getD (s.j + 1) 0 } := by
            unfold iovAdvanceStep
            rw [if_pos hisz, if_neg hjend]
          rw [hio]
          show RxFinal slots cur avail0 chunks mlast iov
            (rxLoop slots iov T fuel
              { s with j := s.j + 1, iovOfs := 0, iovSize := iov.getD (s.j + 1) 0 })
          apply ih t o (j + 1) 0
          · refine ⟨ht, ho, hI, hA, hT0, hMF, hNO, hNS, hSRC, hCP, hOUT,
              by show s.j + 1 = j + 1; omega, by omega, rfl, Nat.zero_le _,
              by show iov.getD (s.j + 1) 0 = iov.getD (j + 1) 0 - 0; rw [hJ]; omega, ?_⟩
            show s.copied = preN iov (j + 1) + 0
            rw [hCPJ, preN_succ_of_lt _ j hJlt, hueq]
            omega
          · show (T - s.copied) + s.avail + (iov.length - (s.j + 1)) + 1 ≤ fuel
            omega
      · -- the copy moves at least one byte
        have hiv_pos : 0 < s.iovSize := by omega
        have hcsv_pos : 0 < min s.nmSize s.iovSize := Nat.lt_min.mpr ⟨hnm_pos, hiv_pos⟩
        have hcsv_le_nm : min s.nmSize s.iovSize ≤ s.nmSize := Nat.min_le_left _ _
        have hcsv_le_iv : min s.nmSize s.iovSize ≤ s.iovSize := Nat.min_le_right _ _
        have hocsv : o + min s.nmSize s.iovSize ≤ (chunks.getD t []).length := by omega
        have hc_i : (copyStep s).i = s.i := rfl
        have hc_avail : (copyStep s).avail = s.avail := rfl
        have hc_mf : (copyStep s).morefrag = s.morefrag := rfl
        have hc_no : (copyStep s).nmOfs = s.nmOfs + min s.nmSize s.iovSize := rfl
        have hc_ns : (copyStep s).nmSize = s.nmSize - min s.nmSize s.iovSize := rfl
        have hc_src : (copyStep s).src = s.src := rfl
        have hc_j : (copyStep s).j = s.j := rfl
        have hc_io : (copyStep s).iovOfs = s.iovOfs + min s.nmSize s.iovSize := rfl
        have hc_is : (copyStep s).iovSize = s.iovSize - min s.nmSize s.iovSize := rfl
        have hc_cp : (copyStep s).copied = s.copied + min s.nmSize s.iovSize := rfl
        have hc_out : (copyStep s).out
            = s.out ++ ((s.src.drop s.nmOfs).take (min s.nmSize s.iovSize)) := rfl
        have hout1 : (copyStep s).out = (flat chunks).take ((copyStep s).copied) := by
          rw [hc_out, hc_cp, hOUT, hCP, hNO, hSRC,
            ← take_drop_of_take_eq hbuf hocsv]
          exact (flat_take_copy chunks t o _ ht hocsv).symm
        have hcp1 : (copyStep s).copied
            = preC chunks t + (o + min s.nmSize s.iovSize) := by
          rw [hc_cp, hCP]; omega
        have hcpj1 : (copyStep s).copied
            = preN iov j + (u + min s.nmSize s.iovSize) := by
          rw [hc_cp, hCPJ]; omega
        have huc_le : u + min s.nmSize s.iovSize ≤ iov.getD j 0 := by omega
        by_cases hns0 : s.nmSize - min s.nmSize s.iovSize = 0
        · -- the copy exhausts the current slot
          have ho' : o + min s.nmSize s.iovSize = (chunks.getD t []).length := by omega
          by_cases hbrk : s.morefrag = false ∨ s.avail = 0
          · -- packet complete or no slot left: break out of the loop
            have hslot : slotAdvanceStep slots (copyStep s) = Sum.inr (copyStep s) := by
              unfold slotAdvanceStep
              rw [hc_ns, hc_mf, hc_avail, if_pos hns0, if_pos hbrk]
            have hiter : rxIter slots iov s = Sum.inr (copyStep s) := by
              unfold rxIter
              rw [hslot]
            rw [hiter]
            show RxFinal slots cur avail0 chunks mlast iov (copyStep s)
            have htk : t = chunks.length - 1 := by
              rcases hbrk with hmf0 | hav0
              · rw [hMF] at hmf0
                unfold mfAt at hmf0
                by_cases h2 : t + 1 < chunks.length
                · rw [if_pos h2] at hmf0
                  exact absurd hmf0 (by simp)
                · omega
              · rw [hA] at hav0
                cases hml : mlast with
                | true => have := hmt hml; omega
                | false => have := hmf hml; omega
            have hmlv : mfAt chunks mlast t = mlast := by
              unfold mfAt
              rw [if_neg (by omega)]
            apply rxFinal_packetEnd
            · show (copyStep s).copied = (flat chunks).length
              rw [hcp1, ho', htk]
              have hps := preC_succ_of_lt chunks (chunks.length - 1) (by omega)
              rw [show chunks.length - 1 + 1 = chunks.length by omega, preC_length] at hps
              omega
            · rw [hcpj1]
              exact copied_le_sum hJlt huc_le
            · exact hout1
            · rw [hc_i, hI, htk]
            · rw [hc_avail, hA, htk]
            · rw [hc_mf, hMF, hmlv]
          · -- advance to the next slot of the chain
            have hmf1 : s.morefrag = true := by
              rcases not_or.mp hbrk with ⟨h1, _⟩
              revert h1
              cases s.morefrag <;> simp
            have hav1 : ¬ s.avail = 0 := (not_or.mp hbrk).2
            have htk1 : t + 1 < chunks.length := by
              by_contra h2
              rw [hMF] at hmf1
              unfold mfAt at hmf1
              rw [if_neg h2] at hmf1
              have := hmt hmf1
              rw [hA] at hav1
              omega
            have htav : t + 1 ≤ avail0 := by
              rw [hA] at hav1
              omega
            have hnrn : NETMAP_RING_NEXT slots.length (copyStep s).i
                = idxAt slots.length cur (t + 1) := by
              rw [hc_i, hI]
              exact idxAt_succ hcap0 cur t
            obtain ⟨hne2, hlen2, hbuf2, hmf2⟩ := hch (t + 1) htk1
            have hlp2 : 0 < (chunks.getD (t + 1) []).length := List.length_pos.mpr hne2
            have hslot : slotAdvanceStep slots (copyStep s)
                = Sum.inl (advState slots (idxAt slots.length cur (t + 1)) (copyStep s)) := by
              unfold slotAdvanceStep
              rw [hc_ns, hc_mf, hc_avail, if_pos hns0, if_neg hbrk, hnrn]
            have hiter : rxIter slots iov s
                = iovAdvanceStep iov (advState slots (idxAt slots.length cur (t + 1)) (copyStep s)) := by
              unfold rxIter
              rw [hslot]
            rw [hiter]
            have hcp2 : (copyStep s).copied = preC chunks (t + 1) := by
              rw [hcp1, ho', preC_succ_of_lt chunks t ht]
            have ha_is : (advState slots (idxAt slots.length cur (t + 1)) (copyStep s)).iovSize
                = s.iovSize - min s.nmSize s.iovSize := hc_is
            have ha_j : (advState slots (idxAt slots.length cur (t + 1)) (copyStep s)).j
                = s.j := hc_j
            have ha_av : (advState slots (idxAt slots.length cur (t + 1)) (copyStep s)).avail
                = s.avail - 1 := by
              show (copyStep s).avail - 1 = s.avail - 1
              rw [hc_avail]
            by_cases hiz : s.iovSize - min s.nmSize s.iovSize = 0
            · have hu1 : u + min s.nmSize s.iovSize = iov.getD j 0 := by omega
              by_cases hjend : iov.length ≤ s.j + 1
              · have hio : iovAdvanceStep iov
                      (advState slots (idxAt slots.length cur (t + 1)) (copyStep s))
                    = Sum.inr { advState slots (idxAt slots.length cur (t + 1)) (copyStep s) with
                                j := s.j + 1 } := by
                  unfold iovAdvanceStep
                  rw [ha_is, ha_j, if_pos hiz, if_pos hjend]
                  exact rfl
                rw [hio]
                apply rxFinal_destBreak
                · show (copyStep s).copied = iov.sum
                  rw [hcpj1]
                  exact copied_eq_sum hJlt hu1 (by omega)
                · show (copyStep s).copied < (flat chunks).length
                  rw [hcp2]
                  have := preC_add_lt htk1 hlp2
                  omega
                · show (copyStep s).out = (flat chunks).take ((copyStep s).copied)
                  exact hout1
                · show avail0 - (chunks.length - 1)
                      ≤ (advState slots (idxAt slots.length cur (t + 1)) (copyStep s)).avail
                  rw [ha_av]
                  omega
              · have hio : iovAdvanceStep iov
                      (advState slots (idxAt slots.length cur (t + 1)) (copyStep s))
                    = Sum.inl { advState slots (idxAt slots.length cur (t + 1)) (copyStep s) with
                                j := s.j + 1, iovOfs := 0, iovSize := iov.getD (s.j + 1) 0 } := by
                  unfold iovAdvanceStep
                  rw [ha_is, ha_j, if_pos hiz, if_neg hjend]
                rw [hio]
                apply ih (t + 1) 0 (j + 1) 0
                · refine ⟨htk1, hlp2, rfl, ?_, htav, ?_, rfl, ?_, rfl, ?_, ?_, ?_,
                    by omega, rfl, Nat.zero_le _, ?_, ?_⟩
                  · show (copyStep s).avail - 1 = avail0 - (t + 1)
                    rw [hc_avail, hA]
                    omega
                  · show (slots.getD (idxAt slots.length cur (t + 1)) default).morefrag
                        = mfAt chunks mlast (t + 1)
                    rw [hmf2]
                    rfl
                  · show (slots.getD (idxAt slots.length cur (t + 1)) default).len
                        = (chunks.getD (t + 1) []).length - 0
                    rw [hlen2]
                    omega
                  · show (copyStep s).copied = preC chunks (t + 1) + 0
                    omega
                  · show (copyStep s).out = (flat chunks).take ((copyStep s).copied)
                    exact hout1
                  · show s.j + 1 = j + 1
                    omega
                  · show iov.getD (s.j + 1) 0 = iov.getD (j + 1) 0 - 0
                    rw [hJ]
                    omega
                  · show (copyStep s).copied = preN iov (j + 1) + 0
                    rw [hcpj1, preN_succ_of_lt _ j hJlt]
                    omega
                · show (T - (copyStep s).copied) + ((copyStep s).avail - 1)
                      + (iov.length - (s.j + 1)) + 1 ≤ fuel
                  rw [hc_cp, hc_avail]
                  omega
            · have hio : iovAdvanceStep iov
                    (advState slots (idxAt slots.length cur (t + 1)) (copyStep s))
                  = Sum.inl (advState slots (idxAt slots.length cur (t + 1)) (copyStep s)) := by
                unfold iovAdvanceStep
                rw [ha_is, if_neg hiz]
              rw [hio]
              apply ih (t + 1) 0 j (u + min s.nmSize s.iovSize)
              · refine ⟨htk1, hlp2, rfl, ?_, htav, ?_, rfl, ?_, rfl, ?_, ?_, ?_,
                  hJlt, ?_, huc_le, ?_, ?_⟩
                · show (copyStep s).avail - 1 = avail0 - (t + 1)
                  rw [hc_avail, hA]
                  omega
                · show (slots.getD (idxAt slots.length cur (t + 1)) default).morefrag
                      = mfAt chunks mlast (t + 1)
                  rw [hmf2]
                  rfl
                · show (slots.getD (idxAt slots.length cur (t + 1)) default).len
                      = (chunks.getD (t + 1) []).length - 0
                  rw [hlen2]
                  omega
                · show (copyStep s).copied = preC chunks (t + 1) + 0
                  omega
                · show (copyStep s).out = (flat chunks).take ((copyStep s).copied)
                  exact hout1
                · show s.j = j
                  omega
                · show (copyStep s).iovOfs = u + min s.nmSize s.iovSize
                  rw [hc_io, hIO]
                · show (copyStep s).iovSize = iov.getD j 0 - (u + min s.nmSize s.iovSize)
                  rw [hc_is, hIS]
                  omega
                · show (copyStep s).copied = preN iov j + (u + min s.nmSize s.iovSize)
                  exact hcpj1
              · show (T - (copyStep s).copied) + ((copyStep s).avail - 1)
                    + (iov.length - s.j) + 1 ≤ fuel
                rw [hc_cp, hc_avail]
                omega
        · -- the slot still has bytes after the copy
          have hslot : slotAdvanceStep slots (copyStep s) = Sum.inl (copyStep s) := by
            unfold slotAdvanceStep
            rw [hc_ns, if_neg hns0]
          have hiter : rxIter slots iov s = iovAdvanceStep iov (copyStep s) := by
            unfold rxIter
            rw [hslot]
          rw [hiter]
          have ho2 : o + min s.nmSize s.iovSize < (chunks.getD t []).length := by omega
          by_cases hiz : s.iovSize - min s.nmSize s.iovSize = 0
          · have hu1 : u + min s.nmSize s.iovSize = iov.getD j 0 := by omega
            by_cases hjend : iov.length ≤ s.j + 1
            · have hio : iovAdvanceStep iov (copyStep s)
                  = Sum.inr { copyStep s with j := s.j + 1 } := by
                unfold iovAdvanceStep
                rw [hc_is, hc_j, if_pos hiz, if_pos hjend]
                exact rfl
              rw [hio]
              apply rxFinal_destBreak
              · show (copyStep s).copied = iov.sum
                rw [hcpj1]
                exact copied_eq_sum hJlt hu1 (by omega)
              · show (copyStep s).copied < (flat chunks).length
                rw [hcp1]
                exact preC_add_lt ht ho2
              · exact hout1
              · show avail0 - (chunks.length - 1) ≤ s.avail
                omega
            · have hio : iovAdvanceStep iov (copyStep s)
                  = Sum.inl { copyStep s with
                              j := s.j + 1, iovOfs := 0,
                              iovSize := iov.getD (s.j + 1) 0 } := by
                unfold iovAdvanceStep
                rw [hc_is, hc_j, if_pos hiz, if_neg hjend]
              rw [hio]
              apply ih t (o + min s.nmSize s.iovSize) (j + 1) 0
              · refine ⟨ht, ho2, hc_i.trans hI, hc_avail.trans hA, hT0,
                  hc_mf.trans hMF,
                  by show (copyStep s).nmOfs = o + min s.nmSize s.iovSize; rw [hc_no, hNO],
                  by show (copyStep s).nmSize
                      = (chunks.getD t []).length - (o + min s.nmSize s.iovSize);
                     rw [hc_ns, hNS]; omega,
                  hc_src.trans hSRC, hcp1,
                  by show (copyStep s).out = (flat chunks).take ((copyStep s).copied); exact hout1,
                  by show s.j + 1 = j + 1; omega, by omega, rfl, Nat.zero_le _,
                  by show iov.getD (s.j + 1) 0 = iov.getD (j + 1) 0 - 0; rw [hJ]; omega, ?_⟩
                show (copyStep s).copied = preN iov (j + 1) + 0
                rw [hcpj1, preN_succ_of_lt _ j hJlt]
                omega
              · show (T - (copyStep s).copied) + s.avail + (iov.length - (s.j + 1)) + 1 ≤ fuel
                rw [hc_cp]
                omega
          · have hio : iovAdvanceStep iov (copyStep s) = Sum.inl (copyStep s) := by
              unfold iovAdvanceStep
              rw [hc_is, if_neg hiz]
            rw [hio]
            apply ih t (o + min s.nmSize s.iovSize) j (u + min s.nmSize s.iovSize)
            · refine ⟨ht, ho2, hc_i.trans hI, hc_avail.trans hA, hT0,
                hc_mf.trans hMF,
                by show (copyStep s).nmOfs = o + min s.nmSize s.iovSize; rw [hc_no, hNO],
                by show (copyStep s).nmSize
                    = (chunks.getD t []).length - (o + min s.nmSize s.iovSize);
                   rw [hc_ns, hNS]; omega,
                hc_src.trans hSRC, hcp1,
                by show (copyStep s).out = (flat chunks).take ((copyStep s).copied); exact hout1,
                hc_j.trans hJ, hJlt,
                by show (copyStep s).iovOfs = u + min s.nmSize s.iovSize; rw [hc_io, hIO],
                huc_le,
                by show (copyStep s).iovSize = iov.getD j 0 - (u + min s.nmSize s.iovSize);
                   rw [hc_is, hIS]; omega,
                hcpj1⟩
            · show (T - (copyStep s).copied) + s.avail + (iov.length - s.j) + 1 ≤ fuel
              rw [hc_cp]
              omega
    · rw [if_neg hcl]
      exact rxFinal_exit s hTM (by omega) hcplt hcpleD hOUT (by omega)

theorem recvmsg_char {r : NmRing} {chunks : List (List Nat)} {mlast : Bool}
    {iov : List Nat} {T : Nat}
    (hchain : ChainAt r.slot r.cur chunks mlast)
    (hk1 : 1 ≤ chunks.length)
    (hmf : mlast = false → chunks.length ≤ r.avail)
    (hmt : mlast = true → r.avail + 1 = chunks.length)
    (hav1 : 1 ≤ r.avail)
    (hTM : min iov.sum (flat chunks).length ≤ T)
    (hiov : iov ≠ []) :
    (netmap_socket_recvmsg r iov T).ret = min iov.sum (flat chunks).length ∧
    (netmap_socket_recvmsg r iov T).out
      = (flat chunks).take (min iov.sum (flat chunks).length) ∧
    r.avail - (chunks.length - 1) ≤ (netmap_socket_recvmsg r iov T).ring.avail ∧
    ((flat chunks).length ≤ iov.sum →
      (netmap_socket_recvmsg r iov T).ring.cur
        = idxAt r.slot.length r.cur (chunks.length - 1) ∧
      (netmap_socket_recvmsg r iov T).ring.avail
        = r.avail - (chunks.length - 1) ∧
      (netmap_socket_recvmsg r iov T).loss = mlast) ∧
    (mlast = false → (netmap_socket_recvmsg r iov T).loss = false) := by
  obtain ⟨hcur, hkcap, hch⟩ := hchain
  have hc0 := hch 0 (by omega)
  have hidx0 : idxAt r.slot.length r.cur 0 = r.cur := idxAt_zero hcur
  rw [hidx0] at hc0
  obtain ⟨hne0, hlen0, hbuf0, hmf0⟩ := hc0
  have hlp0 : 0 < (chunks.getD 0 []).length := List.length_pos.mpr hne0
  have hjlt0 : 0 < iov.length := List.length_pos.mpr hiov
  have hmid0 : RxMid r.slot r.cur r.avail chunks mlast iov 0 0 0 0
      ⟨r.cur, r.avail, (r.slot.getD r.cur default).morefrag, 0,
       (r.slot.getD r.cur default).len, (r.slot.getD r.cur default).buf,
       0, 0, iov.getD 0 0, 0, []⟩ := by
    refine ⟨by omega, hlp0, ?_, ?_, Nat.zero_le _, ?_, rfl, ?_, ?_, ?_, ?_, rfl,
      hjlt0, rfl, Nat.zero_le _, ?_, ?_⟩
    · exact hidx0.symm
    · show r.avail = r.avail - 0
      omega
    · show (r.slot.getD r.cur default).morefrag = mfAt chunks mlast 0
      rw [hmf0]
      rfl
    · show (r.slot.getD r.cur default).len = (chunks.getD 0 []).length - 0
      rw [hlen0]
      omega
    · show (r.slot.getD r.cur default).buf = (r.slot.getD (idxAt r.slot.length r.cur 0) default).buf
      rw [hidx0]
    · show (0 : Nat) = preC chunks 0 + 0
      rw [preC_zero]
    · show ([] : List Nat) = (flat chunks).take 0
      rw [List.take_zero]
    · show iov.getD 0 0 = iov.getD 0 0 - 0
      omega
    · show (0 : Nat) = preN iov 0 + 0
      rw [preN_zero]
  have hfinal := rxLoop_char ⟨hcur, hkcap, hch⟩ hmf hmt hTM
    (T + r.avail + iov.length + 1) 0 0 0 0 _ hmid0 (by
      show (T - 0) + r.avail + (iov.length - 0) + 1 ≤ T + r.avail + iov.length + 1
      omega)
  have hres : netmap_socket_recvmsg r iov T
      = ⟨(rxLoop r.slot iov T (T + r.avail + iov.length + 1)
            ⟨r.cur, r.avail, (r.slot.getD r.cur default).morefrag, 0,
             (r.slot.getD r.cur default).len, (r.slot.getD r.cur default).buf,
             0, 0, iov.getD 0 0, 0, []⟩).copied,
         (rxLoop r.slot iov T (T + r.avail + iov.length + 1)
            ⟨r.cur, r.avail, (r.slot.getD r.cur default).morefrag, 0,
             (r.slot.getD r.cur default).len, (r.slot.getD r.cur default).buf,
             0, 0, iov.getD 0 0, 0, []⟩).out,
         { r with
           cur := (rxLoop r.slot iov T (T + r.avail + iov.length + 1)
             ⟨r.cur, r.avail, (r.slot.getD r.cur default).morefrag, 0,
              (r.slot.getD r.cur default).len, (r.slot.getD r.cur default).buf,
              0, 0, iov.getD 0 0, 0, []⟩).i,
           avail := (rxLoop r.slot iov T (T + r.avail + iov.length + 1)
             ⟨r.cur, r.avail, (r.slot.getD r.cur default).morefrag, 0,
              (r.slot.getD r.cur default).len, (r.slot.getD r.cur default).buf,
              0, 0, iov.getD 0 0, 0, []⟩).avail },
         ((rxLoop r.slot iov T (T + r.avail + iov.length + 1)
            ⟨r.cur, r.avail, (r.slot.getD r.cur default).morefrag, 0,
             (r.slot.getD r.cur default).len, (r.slot.getD r.cur default).buf,
             0, 0, iov.getD 0 0, 0, []⟩).avail == 0)
           && (rxLoop r.slot iov T (T + r.avail + iov.length + 1)
            ⟨r.cur, r.avail, (r.slot.getD r.cur default).morefrag, 0,
             (r.slot.getD r.cur default).len, (r.slot.getD r.cur default).buf,
             0, 0, iov.getD 0 0, 0, []⟩).morefrag⟩ := by
    unfold netmap_socket_recvmsg
    rw [if_neg (by omega : ¬ r.avail = 0)]
  obtain ⟨hfc, hfo, hfa, hfP⟩ := hfinal
  rw [hres]
  refine ⟨hfc, hfo, hfa, ?_, ?_⟩
  · intro hPD
    obtain ⟨hi, ha, hm⟩ := hfP hPD
    refine ⟨hi, ha, ?_⟩
    change ((_ == 0) && _) = mlast
    rw [ha, hm]
    cases hml : mlast with
    | false => exact Bool.and_false _
    | true =>
      have := hmt hml
      have hz : r.avail - (chunks.length - 1) = 0 := by omega
      rw [hz]
      rfl
  · intro hml
    have hk : chunks.length ≤ r.avail := hmf hml
    change ((_ == 0) && _) = false
    have hpos : 0 < (rxLoop r.slot iov T (T + r.avail + iov.length + 1)
        ⟨r.cur, r.avail, (r.slot.getD r.cur default).morefrag, 0,
         (r.slot.getD r.cur default).len, (r.slot.getD r.cur default).buf,
         0, 0, iov.getD 0 0, 0, []⟩).avail := by omega
    have hba : ((rxLoop r.slot iov T (T + r.avail + iov.length + 1)
        ⟨r.cur, r.avail, (r.slot.getD r.cur default).morefrag, 0,
         (r.slot.getD r.cur default).len, (r.slot.getD r.cur default).buf,
         0, 0, iov.getD 0 0, 0, []⟩).avail == 0) = false := by
      cases hbb : ((rxLoop r.slot iov T (T + r.avail + iov.length + 1)
        ⟨r.cur, r.avail, (r.slot.getD r.cur default).morefrag, 0,
         (r.slot.getD r.cur default).len, (r.slot.getD r.cur default).buf,
         0, 0, iov.getD 0 0, 0, []⟩).avail == 0) with
      | false => rfl
      | true =>
        have := eq_of_beq hbb
        omega
    rw [hba, Bool.false_and]

/-! ### Ring-invariant preservation (cursor in range, avail bounded) -/

theorem txSeg_bounds {cap bufsz A : Nat} :
    ∀ (fuel : Nat) (seg : List Nat) (s : TxState),
      s.slots.length = cap → s.i < cap → s.avail ≤ A →
      (sumOut (txSeg cap bufsz fuel seg s)).slots.length = cap ∧
      (sumOut (txSeg cap bufsz fuel seg s)).i < cap ∧
      (sumOut (txSeg cap bufsz fuel seg s)).avail ≤ A := by
  intro fuel
  induction fuel with
  | zero =>
    intro seg s h1 h2 h3
    cases seg with
    | nil => exact ⟨h1, h2, h3⟩
    | cons a rest => exact ⟨h1, h2, h3⟩
  | succ fuel ih =>
    intro seg s h1 h2 h3
    cases seg with
    | nil => exact ⟨h1, h2, h3⟩
    | cons a rest =>
      simp only [txSeg]
      by_cases hz : s.avail = 0
      · rw [if_pos hz]
        exact ⟨h1, h2, h3⟩
      · rw [if_neg hz]
        apply ih
        · rw [List.length_set, h1]
        · exact NETMAP_RING_NEXT_lt h2
        · show s.avail - 1 ≤ A
          omega

theorem txSegs_bounds {cap bufsz A : Nat} :
    ∀ (iov : List (List Nat)) (s : TxState),
      s.slots.length = cap → s.i < cap → s.avail ≤ A →
      (sumOut (txSegs cap bufsz iov s)).slots.length = cap ∧
      (sumOut (txSegs cap bufsz iov s)).i < cap ∧
      (sumOut (txSegs cap bufsz iov s)).avail ≤ A := by
  intro iov
  induction iov with
  | nil => intro s h1 h2 h3; exact ⟨h1, h2, h3⟩
  | cons seg rest ih =>
    intro s h1 h2 h3
    have hstep := @txSeg_bounds cap bufsz A (seg.length + s.avail + 1) seg s h1 h2 h3
    have hmatch : txSegs cap bufsz (seg :: rest) s
        = (match txSeg cap bufsz (seg.length + s.avail + 1) seg s with
           | Sum.inl s1 => Sum.inl s1
           | Sum.inr s1 => txSegs cap bufsz rest s1) := rfl
    rw [hmatch]
    cases h : txSeg cap bufsz (seg.length + s.avail + 1) seg s with
    | inl s1 =>
      rw [h] at hstep
      exact hstep
    | inr s1 =>
      rw [h] at hstep
      exact ih s1 hstep.1 hstep.2.1 hstep.2.2

theorem slotAdvance_bounds (slots : List Slot) (A : Nat) (s : RxState)
    (hi : s.i < slots.length) (ha : s.avail ≤ A) :
    (sumOut (slotAdvanceStep slots s)).i < slots.length ∧
    (sumOut (slotAdvanceStep slots s)).avail ≤ A := by
  unfold slotAdvanceStep
  by_cases h1 : s.nmSize = 0
  · rw [if_pos h1]
    by_cases h2 : s.morefrag = false ∨ s.avail = 0
    · rw [if_pos h2]
      exact ⟨hi, ha⟩
    · rw [if_neg h2]
      refine ⟨?_, ?_⟩
      · show NETMAP_RING_NEXT slots.length s.i < slots.length
        exact NETMAP_RING_NEXT_lt hi
      · show s.avail - 1 ≤ A
        omega
  · rw [if_neg h1]
    exact ⟨hi, ha⟩

theorem iovAdvance_keeps (iov : List Nat) (s : RxState) :
    (sumOut (iovAdvanceStep iov s)).i = s.i ∧
    (sumOut (iovAdvanceStep iov s)).avail = s.avail := by
  unfold iovAdvanceStep
  by_cases h1 : s.iovSize = 0
  · rw [if_pos h1]
    by_cases h2 : iov.length ≤ s.j + 1
    · rw [if_pos h2]
      exact ⟨rfl, rfl⟩
    · rw [if_neg h2]
      exact ⟨rfl, rfl⟩
  · rw [if_neg h1]
    exact ⟨rfl, rfl⟩

theorem rxIter_bounds (slots : List Slot) (iov : List Nat) (A : Nat) (s : RxState)
    (hi : s.i < slots.length) (ha : s.avail ≤ A) :
    (sumOut (rxIter slots iov s)).i < slots.length ∧
    (sumOut (rxIter slots iov s)).avail ≤ A := by
  unfold rxIter
  have h1 := slotAdvance_bounds slots A (copyStep s) hi ha
  cases h : slotAdvanceStep slots (copyStep s) with
  | inr s1 =>
    rw [h] at h1
    exact h1
  | inl s1 =>
    rw [h] at h1
    have h2 := iovAdvance_keeps iov s1
    show (sumOut (iovAdvanceStep iov s1)).i < slots.length ∧
      (sumOut (iovAdvanceStep iov s1)).avail ≤ A
    rw [h2.1, h2.2]
    exact h1

theorem rxLoop_bounds (slots : List Slot) (iov : List Nat) (T A : Nat) :
    ∀ (fuel : Nat) (s : RxState), s.i < slots.length → s.avail ≤ A →
      (rxLoop slots iov T fuel s).i < slots.length ∧
      (rxLoop slots iov T fuel s).avail ≤ A := by
  intro fuel
  induction fuel with
  | zero => intro s hi ha; exact ⟨hi, ha⟩
  | succ fuel ih =>
    intro s hi ha
    simp only [rxLoop]
    by_cases hc : s.copied < T
    · rw [if_pos hc]
      have h1 := rxIter_bounds slots iov A s hi ha
      cases h : rxIter slots iov s with
      | inr s1 =>
        rw [h] at h1
        exact h1
      | inl s1 =>
        rw [h] at h1
        exact ih s1 h1.1 h1.2
    · rw [if_neg hc]
      exact ⟨hi, ha⟩

/-! ### Concrete instances used by the claims -/

theorem chunksOf_replicate_2000 :
    chunksOf 1500 (List.replicate 2000 7)
      = [List.replicate 1500 7, List.replicate 500 7] := by
  rw [chunksOf_cons (by omega) _ (by simp)]
  rw [List.length_replicate, List.take_replicate, List.drop_replicate]
  norm_num
  rw [chunksOf_cons (by omega) _ (by simp)]
  rw [List.length_replicate, List.take_replicate, List.drop_replicate]
  norm_num
  show chunksOf 1500 (List.replicate 0 7) = []
  rfl

theorem chunksOf_replicate_1200 :
    chunksOf 1500 (List.replicate 1200 9) = [List.replicate 1200 9] := by
  rw [chunksOf_cons (by omega) _ (by simp)]
  rw [List.length_replicate, List.take_replicate, List.drop_replicate]
  norm_num
  show chunksOf 1500 (List.replicate 0 9) = []
  rfl

theorem chunkListC3 :
    chunkList 1500 segsC3
      = [List.replicate 1500 7, List.replicate 500 7, List.replicate 1200 9] := by
  show chunksOf 1500 (List.replicate 2000 7)
    ++ (chunksOf 1500 (List.replicate 1200 9) ++ []) = _
  rw [chunksOf_replicate_2000, chunksOf_replicate_1200]
  rfl

/-! ### Claims -/

/-- C2 counterexample: an ingest call with an empty scatter-gather list
returns 0 — the same value as the out-of-space failure — yet it publishes and
invokes the synchronization hook (`nm_txsync`) once, so `result = 0` does not
imply that the hook was not invoked. -/
theorem netmap_C2_cex :
    (netmap_socket_sendmsg ⟨[default], 0, 1, 10⟩ []).ret = 0 ∧
    (netmap_socket_sendmsg ⟨[default], 0, 1, 10⟩ []).txsyncCount = 1 := by
  decide

/-- C2 (amended): if ingest returns 0 on an input of nonzero total length
(a genuine out-of-space failure), the ring's externally visible `cur` and
`avail` are unchanged and the synchronization hook is not invoked. -/
theorem netmap_C2_atomic_fail (r : NmRing) (iov : List (List Nat))
    (htot : 0 < (iov.map List.length).sum)
    (hret : (netmap_socket_sendmsg r iov).ret = 0) :
    (netmap_socket_sendmsg r iov).ring.cur = r.cur ∧
    (netmap_socket_sendmsg r iov).ring.avail = r.avail ∧
    (netmap_socket_sendmsg r iov).txsyncCount = 0 := by
  unfold netmap_socket_sendmsg at hret ⊢
  by_cases hpre : r.avail < iov.length
  · rw [if_pos hpre]
    exact ⟨rfl, rfl, rfl⟩
  · rw [if_neg hpre] at hret ⊢
    cases h : txSegs r.slot.length r.nr_buf_size iov ⟨r.slot, r.cur, r.cur, r.avail, true⟩ with
    | inl s =>
      exact ⟨rfl, rfl, rfl⟩
    | inr s =>
      rw [h] at hret
      have : (iov.map List.length).sum = 0 := hret
      omega

/-- C2 witness: a concrete out-of-space failure (one 5-byte segment into a
ring with no available slot) leaves `cur`/`avail` untouched and never calls
the hook. -/
theorem netmap_C2_atomic_fail_witness :
    0 < (([[5, 5, 5, 5, 5]] : List (List Nat)).map List.length).sum ∧
    (netmap_socket_sendmsg ⟨[default], 0, 0, 10⟩ [[5, 5, 5, 5, 5]]).ret = 0 ∧
    ((netmap_socket_sendmsg ⟨[default], 0, 0, 10⟩ [[5, 5, 5, 5, 5]]).ring.cur = 0 ∧
     (netmap_socket_sendmsg ⟨[default], 0, 0, 10⟩ [[5, 5, 5, 5, 5]]).ring.avail = 0 ∧
     (netmap_socket_sendmsg ⟨[default], 0, 0, 10⟩ [[5, 5, 5, 5, 5]]).txsyncCount = 0) :=
  ⟨by decide, by decide,
   netmap_C2_atomic_fail ⟨[default], 0, 0, 10⟩ [[5, 5, 5, 5, 5]] (by decide) (by decide)⟩

/-- C5 counterexample: a timer expiry with `mit_pending = true` on an
interface without `IFCAP_NETMAP` in `if_capenable` emits no notification
(the handler guards `netmap_common_irq` behind that capability bit), so such
an expiry does not always emit exactly one notification. -/
theorem netmap_C5_cex :
    (⟨true, true, false⟩ : MitState).mit_pending = true ∧
    (generic_timer_handler ⟨true, true, false⟩).notified = 0 := by
  decide

/-- C5 (amended): a timer expiry while `mit_pending` is true clears the flag
and re-arms the timer, and emits exactly one notification provided the
interface is in netmap mode (`IFCAP_NETMAP` set) and none otherwise; a timer
expiry while `mit_pending` is false disarms the timer and emits no
notification. -/
theorem netmap_C5_timer (s : MitState) :
    (s.mit_pending = true →
      (generic_timer_handler s).st.mit_pending = false ∧
      (generic_timer_handler s).st.timerArmed = true ∧
      (generic_timer_handler s).notified = (if s.ifcapNetmap then 1 else 0)) ∧
    (s.mit_pending = false →
      (generic_timer_handler s).notified = 0 ∧
      (generic_timer_handler s).st.timerArmed = false ∧
      (generic_timer_handler s).st.mit_pending = false) := by
  obtain ⟨p, a, c⟩ := s
  cases p <;> cases c <;> simp [generic_timer_handler]

/-- C5 witness: with netmap mode enabled, a pending expiry emits exactly one
notification, clears `mit_pending` and re-arms. -/
theorem netmap_C5_timer_witness :
    (⟨true, true, true⟩ : MitState).mit_pending = true ∧
    ((generic_timer_handler ⟨true, true, true⟩).st.mit_pending = false ∧
     (generic_timer_handler ⟨true, true, true⟩).st.timerArmed = true ∧
     (generic_timer_handler ⟨true, true, true⟩).notified
       = (if (⟨true, true, true⟩ : MitState).ifcapNetmap then 1 else 0)) :=
  ⟨rfl, (netmap_C5_timer ⟨true, true, true⟩).1 rfl⟩

/-- C3 counterexample: on the spec's worked example (4 slots of 1500 bytes,
`avail = 4`, segments of 2000 and 1200 bytes) the second written slot holds
500 bytes and the third 1200 bytes — not 1500 and 200 as claimed — because
each segment starts in a fresh slot: the inner copy loop chunks one segment
at a time and never packs the next segment into a partially filled slot. -/
theorem netmap_C3_cex :
    ¬ (((netmap_socket_sendmsg ringC3 segsC3).ring.slot.getD 1 default).len = 1500 ∧
       ((netmap_socket_sendmsg ringC3 segsC3).ring.slot.getD 2 default).len = 200) := by
  have hk3 : (chunkList ringC3.nr_buf_size segsC3).length = 3 := by
    show (chunkList 1500 segsC3).length = 3
    rw [chunkListC3]
    rfl
  obtain ⟨hret, hsync, hlen, hcurE, havE, hbufE, hchainF⟩ :=
    @sendmsg_char ringC3 segsC3 (by decide) (by decide) (by decide)
      (by decide) (by rw [hk3]; decide)
  obtain ⟨_, _, hch⟩ := hchainF (by rw [hk3]; decide)
  have h1 := hch 1 (by rw [hk3]; decide)
  rw [hlen] at h1
  rw [show idxAt ringC3.slot.length ringC3.cur 1 = 1 from by decide] at h1
  have hlen1 : ((netmap_socket_sendmsg ringC3 segsC3).ring.slot.getD 1 default).len
      = 500 := by
    have := h1.2.1
    rw [show chunkList ringC3.nr_buf_size segsC3 = chunkList 1500 segsC3 from rfl,
      chunkListC3] at this
    simpa using this
  intro hcl
  rw [hlen1] at hcl
  omega

/-- C3 (amended): on the spec's worked example the ingest call consumes
exactly 3 slots with slot lengths 1500, 500 and 1200 (each segment starts in
a fresh slot), sets `MORE_FRAGMENTS` on the first two slots and clears it on
the third, returns 3200, and leaves `avail = 1` and `cur = 3`. -/
theorem netmap_C3_example :
    (netmap_socket_sendmsg ringC3 segsC3).ret = 3200 ∧
    ((netmap_socket_sendmsg ringC3 segsC3).ring.slot.getD 0 default).len = 1500 ∧
    ((netmap_socket_sendmsg ringC3 segsC3).ring.slot.getD 1 default).len = 500 ∧
    ((netmap_socket_sendmsg ringC3 segsC3).ring.slot.getD 2 default).len = 1200 ∧
    ((netmap_socket_sendmsg ringC3 segsC3).ring.slot.getD 0 default).morefrag = true ∧
    ((netmap_socket_sendmsg ringC3 segsC3).ring.slot.getD 1 default).morefrag = true ∧
    ((netmap_socket_sendmsg ringC3 segsC3).ring.slot.getD 2 default).morefrag = false ∧
    (netmap_socket_sendmsg ringC3 segsC3).ring.avail = 1 ∧
    (netmap_socket_sendmsg ringC3 segsC3).ring.cur = 3 := by
  have hk3 : (chunkList ringC3.nr_buf_size segsC3).length = 3 := by
    show (chunkList 1500 segsC3).length = 3
    rw [chunkListC3]
    rfl
  obtain ⟨hret, hsync, hlen, hcurE, havE, hbufE, hchainF⟩ :=
    @sendmsg_char ringC3 segsC3 (by decide) (by decide) (by decide)
      (by decide) (by rw [hk3]; decide)
  obtain ⟨_, _, hch⟩ := hchainF (by rw [hk3]; decide)
  have h0 := hch 0 (by rw [hk3]; decide)
  have h1 := hch 1 (by rw [hk3]; decide)
  have h2 := hch 2 (by rw [hk3]; decide)
  rw [hlen, show idxAt ringC3.slot.length ringC3.cur 0 = 0 from by decide] at h0
  rw [hlen, show idxAt ringC3.slot.length ringC3.cur 1 = 1 from by decide] at h1
  rw [hlen, show idxAt ringC3.slot.length ringC3.cur 2 = 2 from by decide] at h2
  have hcl : chunkList ringC3.nr_buf_size segsC3
      = [List.replicate 1500 7, List.replicate 500 7, List.replicate 1200 9] := by
    show chunkList 1500 segsC3 = _
    exact chunkListC3
  rw [hcl] at h0 h1 h2
  refine ⟨?_, ?_, ?_, ?_, ?_, ?_, ?_, ?_, ?_⟩
  · rw [hret, show segsC3 = [List.replicate 2000 7, List.replicate 1200 9] from rfl,
      List.map_cons, List.map_cons, List.map_nil, List.length_replicate,
      List.length_replicate, List.sum_cons, List.sum_cons, List.sum_nil]
    decide
  · have := h0.2.1
    simpa using this
  · have := h1.2.1
    simpa using this
  · have := h2.2.1
    simpa using this
  · have := h0.2.2.2
    rw [hcl] at hk3
    simpa using this
  · have := h1.2.2.2
    simpa using this
  · have := h2.2.2.2
    simpa using this
  · rw [havE, hk3]
    decide
  · rw [hcurE, hk3]
    decide

theorem recvmsg_avail0 {r : NmRing} (iov : List Nat) (T : Nat) (h : r.avail = 0) :
    netmap_socket_recvmsg r iov T = ⟨0, [], r, false⟩ := by
  unfold netmap_socket_recvmsg
  rw [if_pos h]

/-- C1 counterexample: three one-byte segments into a ring with `avail = 2`
and 10-byte slots satisfy `total ≤ avail * slot_cap` (3 ≤ 20), yet ingest
fails at the `avail < iovcnt` precheck (each segment needs its own slot), so
the subsequent drain reproduces nothing. -/
theorem netmap_C1_cex :
    ((([[1], [2], [3]] : List (List Nat)).map List.length).sum ≤ 2 * 10) ∧
    (netmap_socket_sendmsg ⟨List.replicate 2 default, 0, 2, 10⟩ [[1], [2], [3]]).ret = 0 ∧
    (netmap_socket_recvmsg
      { (netmap_socket_sendmsg ⟨List.replicate 2 default, 0, 2, 10⟩
           [[1], [2], [3]]).ring with
        cur := 0, avail := (chunkList 10 [[1], [2], [3]]).length }
      [3] 3).out ≠ flat [[1], [2], [3]] := by
  refine ⟨by decide, by decide, by decide⟩

/-- C1 (amended round-trip law): when every segment fits — the segment count
is at most `avail` and the total slot demand `Σ ⌈len_i / slot_cap⌉` (the
number of chunks) is at most `avail` — ingest succeeds, and draining the
written fragment chain (consumer cursor at the producer's starting slot,
consumer `avail` equal to the number of slots written) into a destination of
equal total size reproduces the original byte sequence exactly. -/
theorem netmap_C1_roundtrip (r : NmRing) (segs : List (List Nat)) (dest : List Nat)
    (hcur : r.cur < r.slot.length) (hav : r.avail ≤ r.slot.length)
    (hb : 1 ≤ r.nr_buf_size)
    (hcnt : segs.length ≤ r.avail)
    (hk : (chunkList r.nr_buf_size segs).length ≤ r.avail)
    (hdest : dest.sum = (segs.map List.length).sum) :
    (netmap_socket_sendmsg r segs).ret = (segs.map List.length).sum ∧
    (netmap_socket_recvmsg
      { (netmap_socket_sendmsg r segs).ring with
        cur := r.cur, avail := (chunkList r.nr_buf_size segs).length }
      dest ((segs.map List.length).sum)).out = flat segs ∧
    (netmap_socket_recvmsg
      { (netmap_socket_sendmsg r segs).ring with
        cur := r.cur, avail := (chunkList r.nr_buf_size segs).length }
      dest ((segs.map List.length).sum)).ret = (segs.map List.length).sum := by
  have hchar := sendmsg_char hcur hav hb hcnt hk
  have htot_eq : (segs.map List.length).sum
      = (flat (chunkList r.nr_buf_size segs)).length := by
    rw [flat_chunkList hb, ← length_flat]
  by_cases hk0 : (chunkList r.nr_buf_size segs).length = 0
  · have hcl0 : chunkList r.nr_buf_size segs = [] := List.length_eq_zero.mp hk0
    have hfseg : flat segs = [] := by
      rw [← flat_chunkList hb segs, hcl0]
      rfl
    have htot0 : (segs.map List.length).sum = 0 := by
      rw [htot_eq, hcl0]
      rfl
    have hearly := recvmsg_avail0 (r := { (netmap_socket_sendmsg r segs).ring with
        cur := r.cur, avail := (chunkList r.nr_buf_size segs).length })
      dest ((segs.map List.length).sum) hk0
    rw [hearly]
    exact ⟨hchar.1, by rw [hfseg], by rw [htot0]⟩
  · have hchain : ChainAt ({ (netmap_socket_sendmsg r segs).ring with
        cur := r.cur, avail := (chunkList r.nr_buf_size segs).length } : NmRing).slot
        r.cur (chunkList r.nr_buf_size segs) false :=
      hchar.2.2.2.2.2.2 (by omega)
    have htot_pos : 0 < (segs.map List.length).sum := by
      rw [htot_eq]
      cases hcl : chunkList r.nr_buf_size segs with
      | nil => rw [hcl] at hk0; simp at hk0
      | cons c cs =>
        have hcne : c ≠ [] := mem_chunkList_ne_nil hb segs c (by rw [hcl]; exact List.mem_cons_self c cs)
        have : 0 < c.length := List.length_pos.mpr hcne
        show 0 < (c ++ flat cs).length
        rw [List.length_append]
        omega
    have hdne : dest ≠ [] := by
      intro hD
      rw [hD] at hdest
      simp at hdest
      omega
    have hbridge := @recvmsg_char
      { (netmap_socket_sendmsg r segs).ring with
        cur := r.cur, avail := (chunkList r.nr_buf_size segs).length }
      (chunkList r.nr_buf_size segs) false dest ((segs.map List.length).sum)
      hchain (by omega)
      (fun _ => Nat.le_refl _) (fun h => absurd h (by decide))
      (by show 1 ≤ (chunkList r.nr_buf_size segs).length; omega)
      (by rw [hdest, htot_eq]; exact Nat.min_le_right _ _) hdne
    have hmin : min dest.sum (flat (chunkList r.nr_buf_size segs)).length
        = (flat (chunkList r.nr_buf_size segs)).length := by
      rw [hdest, htot_eq]
      exact Nat.min_self _
    refine ⟨hchar.1, ?_, ?_⟩
    · rw [hbridge.2.1, hmin, List.take_length, flat_chunkList hb]
    · rw [hbridge.1, hmin, ← htot_eq]

/-- C1 witness: a 3-byte packet through a 2-slot ring of 2-byte buffers comes
back out intact. -/
theorem netmap_C1_roundtrip_witness :
    (ringSmall.cur < ringSmall.slot.length ∧ ringSmall.avail ≤ ringSmall.slot.length ∧
     1 ≤ ringSmall.nr_buf_size ∧ ([[1, 2, 3]] : List (List Nat)).length ≤ ringSmall.avail ∧
     (chunkList ringSmall.nr_buf_size [[1, 2, 3]]).length ≤ ringSmall.avail ∧
     ([3] : List Nat).sum = (([[1, 2, 3]] : List (List Nat)).map List.length).sum) ∧
    (netmap_socket_recvmsg
      { (netmap_socket_sendmsg ringSmall [[1, 2, 3]]).ring with
        cur := ringSmall.cur, avail := (chunkList ringSmall.nr_buf_size [[1, 2, 3]]).length }
      [3] ((([[1, 2, 3]] : List (List Nat)).map List.length).sum)).out = flat [[1, 2, 3]] :=
  ⟨⟨by decide, by decide, by decide, by decide, by decide, by decide⟩,
   (netmap_C1_roundtrip ringSmall [[1, 2, 3]] [3] (by decide) (by decide) (by decide)
     (by decide) (by decide) (by decide)).2.1⟩

/-- C4 counterexample: draining the three-fragment packet of `ringChain`
(6 bytes still available, `MORE_FRAGMENTS` set, 2 slots still available)
into a single 3-byte destination stops with 3 bytes copied, but the loss
warning does NOT fire: the source only warns when `!avail && morefrag`,
i.e. when the ring itself also ran out of slots, not on destination
exhaustion. -/
theorem netmap_C4_cex :
    (netmap_socket_recvmsg ringChain [3] 6).ret = 3 ∧
    (netmap_socket_recvmsg ringChain [3] 6).ring.avail = 2 ∧
    (netmap_socket_recvmsg ringChain [3] 6).loss = false := by
  refine ⟨by decide, by decide, by decide⟩

/-- C4 (amended): when the destination segment list is exhausted while the
current packet still has undelivered fragment data and slots remain
available, the call stops and returns exactly the number of bytes that fit
into the destination (delivering the packet's prefix of that length), and
the loss condition is NOT signalled — the warning fires only when the ring
simultaneously runs out of slots mid-packet. -/
theorem netmap_C4_destExhaust (r : NmRing) (chunks : List (List Nat))
    (iov : List Nat) (T : Nat)
    (hchain : ChainAt r.slot r.cur chunks false)
    (hk1 : 1 ≤ chunks.length)
    (hkav : chunks.length ≤ r.avail)
    (hD : iov.sum < (flat chunks).length)
    (hT : iov.sum ≤ T)
    (hiov : iov ≠ []) :
    (netmap_socket_recvmsg r iov T).ret = iov.sum ∧
    (netmap_socket_recvmsg r iov T).out = (flat chunks).take iov.sum ∧
    (netmap_socket_recvmsg r iov T).loss = false := by
  have hmin : min iov.sum (flat chunks).length = iov.sum :=
    Nat.min_eq_left (by omega)
  have hbridge := @recvmsg_char r chunks false iov T hchain hk1 (fun _ => hkav)
    (fun h => absurd h (by decide)) (by omega) (by rw [hmin]; exact hT) hiov
  exact ⟨by rw [hbridge.1, hmin], by rw [hbridge.2.1, hmin],
    hbridge.2.2.2.2 rfl⟩

/-- C4 witness: the `ringChain` scenario through the amended theorem. -/
theorem netmap_C4_destExhaust_witness :
    (ChainAt ringChain.slot ringChain.cur [[1, 2], [3, 4], [5, 6]] false ∧
     1 ≤ ([[1, 2], [3, 4], [5, 6]] : List (List Nat)).length ∧
     ([[1, 2], [3, 4], [5, 6]] : List (List Nat)).length ≤ ringChain.avail ∧
     ([3] : List Nat).sum < (flat [[1, 2], [3, 4], [5, 6]]).length ∧
     ([3] : List Nat).sum ≤ 6 ∧ ([3] : List Nat) ≠ []) ∧
    ((netmap_socket_recvmsg ringChain [3] 6).ret = ([3] : List Nat).sum ∧
     (netmap_socket_recvmsg ringChain [3] 6).out
       = (flat [[1, 2], [3, 4], [5, 6]]).take (([3] : List Nat).sum) ∧
     (netmap_socket_recvmsg ringChain [3] 6).loss = false) :=
  ⟨⟨by decide, by decide, by decide, by decide, by decide, by decide⟩,
   netmap_C4_destExhaust ringChain [[1, 2], [3, 4], [5, 6]] [3] 6 (by decide)
     (by decide) (by decide) (by decide) (by decide) (by decide)⟩

/-- C6: drain stop/advance discipline.  On a fragment chain whose last slot
either has `MORE_FRAGMENTS` clear (`mlast = false`, enough `avail`) or has it
set with `avail` exhausted exactly there (`mlast = true`, `avail + 1` slots
in the chain), a drain call with a destination that can hold the whole packet
but a larger `requested_len` stops at the end of the packet — returning fewer
bytes than requested — and has advanced slot by slot, decrementing `avail`
once per fragment boundary: final `cur` sits on the packet's last slot and
`avail` dropped by exactly `chain length - 1`. -/
theorem netmap_C6_stopAdvance (r : NmRing) (chunks : List (List Nat))
    (mlast : Bool) (iov : List Nat) (T : Nat)
    (hchain : ChainAt r.slot r.cur chunks mlast)
    (hk1 : 1 ≤ chunks.length)
    (havail : (mlast = false ∧ chunks.length ≤ r.avail) ∨
              (mlast = true ∧ r.avail + 1 = chunks.length ∧ 1 ≤ r.avail))
    (hD : (flat chunks).length ≤ iov.sum)
    (hT : (flat chunks).length < T)
    (hiov : iov ≠ []) :
    (netmap_socket_recvmsg r iov T).ret = (flat chunks).length ∧
    (netmap_socket_recvmsg r iov T).ret < T ∧
    (netmap_socket_recvmsg r iov T).ring.cur
      = idxAt r.slot.length r.cur (chunks.length - 1) ∧
    (netmap_socket_recvmsg r iov T).ring.avail = r.avail - (chunks.length - 1) := by
  have hmin : min iov.sum (flat chunks).length = (flat chunks).length :=
    Nat.min_eq_right (by omega)
  have hmf : mlast = false → chunks.length ≤ r.avail := by
    intro h
    rcases havail with ⟨_, h2⟩ | ⟨h1, _⟩
    · exact h2
    · rw [h] at h1
      exact absurd h1 (by decide)
  have hmt : mlast = true → r.avail + 1 = chunks.length := by
    intro h
    rcases havail with ⟨h1, _⟩ | ⟨_, h2, _⟩
    · rw [h] at h1
      exact absurd h1 (by decide)
    · exact h2
  have hav1 : 1 ≤ r.avail := by
    rcases havail with ⟨_, h2⟩ | ⟨_, _, h3⟩
    · omega
    · exact h3
  have hbridge := @recvmsg_char r chunks mlast iov T hchain hk1 hmf hmt hav1
    (by rw [hmin]; exact Nat.le_of_lt hT) hiov
  have hPD := hbridge.2.2.2.1 hD
  refine ⟨by rw [hbridge.1, hmin], by rw [hbridge.1, hmin]; omega, hPD.1, hPD.2.1⟩

/-- C6 witness: draining the `ringChain` packet with a 10-byte destination
and `requested_len = 7` stops after the 6-byte packet. -/
theorem netmap_C6_stopAdvance_witness :
    (ChainAt ringChain.slot ringChain.cur [[1, 2], [3, 4], [5, 6]] false ∧
     (false = false ∧ ([[1, 2], [3, 4], [5, 6]] : List (List Nat)).length ≤ ringChain.avail) ∧
     (flat [[1, 2], [3, 4], [5, 6]]).length ≤ ([10] : List Nat).sum ∧
     (flat [[1, 2], [3, 4], [5, 6]]).length < 7 ∧ ([10] : List Nat) ≠ []) ∧
    ((netmap_socket_recvmsg ringChain [10] 7).ret = (flat [[1, 2], [3, 4], [5, 6]]).length ∧
     (netmap_socket_recvmsg ringChain [10] 7).ret < 7 ∧
     (netmap_socket_recvmsg ringChain [10] 7).ring.cur
       = idxAt ringChain.slot.length ringChain.cur
           (([[1, 2], [3, 4], [5, 6]] : List (List Nat)).length - 1) ∧
     (netmap_socket_recvmsg ringChain [10] 7).ring.avail
       = ringChain.avail - (([[1, 2], [3, 4], [5, 6]] : List (List Nat)).length - 1)) :=
  ⟨⟨by decide, ⟨rfl, by decide⟩, by decide, by decide, by decide⟩,
   netmap_C6_stopAdvance ringChain [[1, 2], [3, 4], [5, 6]] false [10] 7 (by decide)
     (by decide) (Or.inl ⟨rfl, by decide⟩) (by decide) (by decide) (by decide)⟩

/-- C10: the final slot of a completed packet is never released by the
draining call.  When a drain call consumes a whole fragment chain (the last
slot exhausted with `MORE_FRAGMENTS` clear), the published `cur` equals the
index of that final, fully consumed slot, and `avail` was decremented only
`chain length - 1` times — never for the final slot — so at least one slot
remains available. -/
theorem netmap_C10_lastSlotKept (r : NmRing) (chunks : List (List Nat))
    (iov : List Nat) (T : Nat)
    (hchain : ChainAt r.slot r.cur chunks false)
    (hk1 : 1 ≤ chunks.length)
    (hkav : chunks.length ≤ r.avail)
    (hD : (flat chunks).length ≤ iov.sum)
    (hT : (flat chunks).length ≤ T)
    (hiov : iov ≠ []) :
    (netmap_socket_recvmsg r iov T).ring.cur
      = idxAt r.slot.length r.cur (chunks.length - 1) ∧
    (netmap_socket_recvmsg r iov T).ring.avail = r.avail - (chunks.length - 1) ∧
    1 ≤ (netmap_socket_recvmsg r iov T).ring.avail := by
  have hmin : min iov.sum (flat chunks).length = (flat chunks).length :=
    Nat.min_eq_right (by omega)
  have hbridge := @recvmsg_char r chunks false iov T hchain hk1 (fun _ => hkav)
    (fun h => absurd h (by decide)) (by omega) (by rw [hmin]; exact hT) hiov
  have hPD := hbridge.2.2.2.1 hD
  exact ⟨hPD.1, hPD.2.1, by rw [hPD.2.1]; omega⟩

/-- C10 witness: after fully draining the `ringChain` packet, `cur` sits on
slot 2 and `avail` is 1 — the final slot was not released. -/
theorem netmap_C10_lastSlotKept_witness :
    (ChainAt ringChain.slot ringChain.cur [[1, 2], [3, 4], [5, 6]] false ∧
     ([[1, 2], [3, 4], [5, 6]] : List (List Nat)).length ≤ ringChain.avail ∧
     (flat [[1, 2], [3, 4], [5, 6]]).length ≤ ([6] : List Nat).sum ∧
     (flat [[1, 2], [3, 4], [5, 6]]).length ≤ 6 ∧ ([6] : List Nat) ≠ []) ∧
    ((netmap_socket_recvmsg ringChain [6] 6).ring.cur
       = idxAt ringChain.slot.length ringChain.cur
           (([[1, 2], [3, 4], [5, 6]] : List (List Nat)).length - 1) ∧
     (netmap_socket_recvmsg ringChain [6] 6).ring.avail
       = ringChain.avail - (([[1, 2], [3, 4], [5, 6]] : List (List Nat)).length - 1) ∧
     1 ≤ (netmap_socket_recvmsg ringChain [6] 6).ring.avail) :=
  ⟨⟨by decide, by decide, by decide, by decide, by decide⟩,
   netmap_C10_lastSlotKept ringChain [[1, 2], [3, 4], [5, 6]] [6] 6 (by decide)
     (by decide) (by decide) (by decide) (by decide) (by decide)⟩

/-- C7: every slot written by a successful ingest call carries
`NS_MOREFRAG` except the very last slot written for the whole call, whose
flag is cleared after the loop (`ring->slot[last].flags &= ~NS_MOREFRAG`). -/
theorem netmap_C7_morefrag (r : NmRing) (iov : List (List Nat))
    (hcur : r.cur < r.slot.length) (hav : r.avail ≤ r.slot.length)
    (hb : 1 ≤ r.nr_buf_size)
    (hcnt : iov.length ≤ r.avail)
    (hk : (chunkList r.nr_buf_size iov).length ≤ r.avail) :
    ∀ t, t < (chunkList r.nr_buf_size iov).length →
      ((netmap_socket_sendmsg r iov).ring.slot.getD
          (idxAt r.slot.length r.cur t) default).morefrag
        = decide (t + 1 < (chunkList r.nr_buf_size iov).length) := by
  intro t ht
  have hchar := sendmsg_char hcur hav hb hcnt hk
  obtain ⟨_, _, hch⟩ := hchar.2.2.2.2.2.2 (by omega)
  have hflag := (hch t ht).2.2.2
  rw [hchar.2.2.1] at hflag
  rw [hflag]
  by_cases h2 : t + 1 < (chunkList r.nr_buf_size iov).length
  · rw [if_pos h2, decide_eq_true h2]
  · rw [if_neg h2, decide_eq_false h2]

/-- C7 witness: ingesting one 3-byte segment into 2-byte slots writes two
slots, the first flagged `MORE_FRAGMENTS` and the second not. -/
theorem netmap_C7_morefrag_witness :
    (ringSmall.cur < ringSmall.slot.length ∧ ringSmall.avail ≤ ringSmall.slot.length ∧
     1 ≤ ringSmall.nr_buf_size ∧ ([[1, 2, 3]] : List (List Nat)).length ≤ ringSmall.avail ∧
     (chunkList ringSmall.nr_buf_size [[1, 2, 3]]).length ≤ ringSmall.avail) ∧
    ((netmap_socket_sendmsg ringSmall [[1, 2, 3]]).ring.slot.getD
        (idxAt ringSmall.slot.length ringSmall.cur 0) default).morefrag
      = decide (0 + 1 < (chunkList ringSmall.nr_buf_size [[1, 2, 3]]).length) ∧
    ((netmap_socket_sendmsg ringSmall [[1, 2, 3]]).ring.slot.getD
        (idxAt ringSmall.slot.length ringSmall.cur 1) default).morefrag
      = decide (1 + 1 < (chunkList ringSmall.nr_buf_size [[1, 2, 3]]).length) :=
  ⟨⟨by decide, by decide, by decide, by decide, by decide⟩,
   netmap_C7_morefrag ringSmall [[1, 2, 3]] (by decide) (by decide) (by decide)
     (by decide) (by decide) 0 (by decide),
   netmap_C7_morefrag ringSmall [[1, 2, 3]] (by decide) (by decide) (by decide)
     (by decide) (by decide) 1 (by decide)⟩

/-- C8: a successful ingest call returns the total input length, publishes
the new `cur` and `avail` (advanced by the number of slots written), and
invokes the ring synchronization hook `nm_txsync` exactly once for the whole
call — the loop body itself never calls it. -/
theorem netmap_C8_publishOnce (r : NmRing) (iov : List (List Nat))
    (hcur : r.cur < r.slot.length) (hav : r.avail ≤ r.slot.length)
    (hb : 1 ≤ r.nr_buf_size)
    (hcnt : iov.length ≤ r.avail)
    (hk : (chunkList r.nr_buf_size iov).length ≤ r.avail) :
    (netmap_socket_sendmsg r iov).ret = (iov.map List.length).sum ∧
    (netmap_socket_sendmsg r iov).txsyncCount = 1 ∧
    (netmap_socket_sendmsg r iov).ring.cur
      = idxAt r.slot.length r.cur (chunkList r.nr_buf_size iov).length ∧
    (netmap_socket_sendmsg r iov).ring.avail
      = r.avail - (chunkList r.nr_buf_size iov).length := by
  have hchar := sendmsg_char hcur hav hb hcnt hk
  exact ⟨hchar.1, hchar.2.1, hchar.2.2.2.1, hchar.2.2.2.2.1⟩

/-- C8 witness: the 3-byte ingest into `ringSmall` returns 3, syncs once and
publishes `cur = 0` (wrapped) and `avail = 0`. -/
theorem netmap_C8_publishOnce_witness :
    (ringSmall.cur < ringSmall.slot.length ∧ ringSmall.avail ≤ ringSmall.slot.length ∧
     1 ≤ ringSmall.nr_buf_size ∧ ([[1, 2, 3]] : List (List Nat)).length ≤ ringSmall.avail ∧
     (chunkList ringSmall.nr_buf_size [[1, 2, 3]]).length ≤ ringSmall.avail) ∧
    ((netmap_socket_sendmsg ringSmall [[1, 2, 3]]).ret
       = (([[1, 2, 3]] : List (List Nat)).map List.length).sum ∧
     (netmap_socket_sendmsg ringSmall [[1, 2, 3]]).txsyncCount = 1 ∧
     (netmap_socket_sendmsg ringSmall [[1, 2, 3]]).ring.cur
       = idxAt ringSmall.slot.length ringSmall.cur
           (chunkList ringSmall.nr_buf_size [[1, 2, 3]]).length ∧
     (netmap_socket_sendmsg ringSmall [[1, 2, 3]]).ring.avail
       = ringSmall.avail - (chunkList ringSmall.nr_buf_size [[1, 2, 3]]).length) :=
  ⟨⟨by decide, by decide, by decide, by decide, by decide⟩,
   netmap_C8_publishOnce ringSmall [[1, 2, 3]] (by decide) (by decide) (by decide)
     (by decide) (by decide)⟩

/-- C9: both the ingest and the drain call preserve the ring invariant —
the slot count is unchanged, the published `cur` is a valid slot index and
`avail` never exceeds the ring capacity — and index stepping follows the
`NETMAP_RING_NEXT` contract `(i + 1) mod capacity`. -/
theorem netmap_C9_invariant (r : NmRing) (segs : List (List Nat))
    (iov : List Nat) (T : Nat)
    (hcur : r.cur < r.slot.length) (hav : r.avail ≤ r.slot.length) :
    ((netmap_socket_sendmsg r segs).ring.slot.length = r.slot.length ∧
     (netmap_socket_sendmsg r segs).ring.cur < r.slot.length ∧
     (netmap_socket_sendmsg r segs).ring.avail ≤ r.slot.length) ∧
    ((netmap_socket_recvmsg r iov T).ring.slot.length = r.slot.length ∧
     (netmap_socket_recvmsg r iov T).ring.cur < r.slot.length ∧
     (netmap_socket_recvmsg r iov T).ring.avail ≤ r.slot.length) ∧
    (∀ i, i < r.slot.length →
      NETMAP_RING_NEXT r.slot.length i = (i + 1) % r.slot.length) := by
  refine ⟨?_, ?_, fun i hi => NETMAP_RING_NEXT_eq_mod hi⟩
  · have hbounds := @txSegs_bounds r.slot.length r.nr_buf_size r.avail segs
      ⟨r.slot, r.cur, r.cur, r.avail, true⟩ rfl hcur (Nat.le_refl _)
    unfold netmap_socket_sendmsg
    by_cases hpre : r.avail < segs.length
    · rw [if_pos hpre]
      exact ⟨rfl, hcur, hav⟩
    · rw [if_neg hpre]
      cases h : txSegs r.slot.length r.nr_buf_size segs ⟨r.slot, r.cur, r.cur, r.avail, true⟩ with
      | inl s =>
        rw [h] at hbounds
        exact ⟨hbounds.1, hcur, hav⟩
      | inr s =>
        rw [h] at hbounds
        refine ⟨?_, hbounds.2.1, Nat.le_trans hbounds.2.2 hav⟩
        show (s.slots.set s.last _).length = r.slot.length
        rw [List.length_set]
        exact hbounds.1
  · unfold netmap_socket_recvmsg
    by_cases hz : r.avail = 0
    · rw [if_pos hz]
      exact ⟨rfl, hcur, hav⟩
    · rw [if_neg hz]
      have hb := rxLoop_bounds r.slot iov T r.avail (T + r.avail + iov.length + 1)
        ⟨r.cur, r.avail, (r.slot.getD r.cur default).morefrag, 0,
         (r.slot.getD r.cur default).len, (r.slot.getD r.cur default).buf,
         0, 0, iov.getD 0 0, 0, []⟩ hcur (Nat.le_refl _)
      exact ⟨rfl, hb.1, Nat.le_trans hb.2 hav⟩

/-- C9 witness: invariant preservation on a concrete ring and calls. -/
theorem netmap_C9_invariant_witness :
    (ringChain.cur < ringChain.slot.length ∧ ringChain.avail ≤ ringChain.slot.length) ∧
    (((netmap_socket_sendmsg ringChain [[9]]).ring.slot.length = ringChain.slot.length ∧
      (netmap_socket_sendmsg ringChain [[9]]).ring.cur < ringChain.slot.length ∧
      (netmap_socket_sendmsg ringChain [[9]]).ring.avail ≤ ringChain.slot.length) ∧
     ((netmap_socket_recvmsg ringChain [2] 2).ring.slot.length = ringChain.slot.length ∧
      (netmap_socket_recvmsg ringChain [2] 2).ring.cur < ringChain.slot.length ∧
      (netmap_socket_recvmsg ringChain [2] 2).ring.avail ≤ ringChain.slot.length) ∧
     (∀ i, i < ringChain.slot.length →
       NETMAP_RING_NEXT ringChain.slot.length i = (i + 1) % ringChain.slot.length)) :=
  ⟨⟨by decide, by decide⟩,
   netmap_C9_invariant ringChain [[9]] [2] 2 (by decide) (by decide)⟩
